import Mathlib

/-!
Verification development for the pike-sre library (structural regular
expressions for TypeScript).

The TypeScript sources are shallowly embedded: JavaScript strings become
`List Char`, the host regular-expression capability becomes an abstract
record (`RePat`) packaging the global-scan `exec` primitive together with
the well-formedness facts the host guarantees (a match found when scanning
from position `i` starts at or after `i` and lies inside the text), and
every library function is translated into an executable Lean definition
mirroring the corresponding TypeScript function.  Loops are translated to
fuel-indexed structural recursion so that every definition computes by
kernel reduction; the fuel bounds are chosen from the same progress
arguments the code relies on (scan positions strictly increase).

The external entropy source behind `generateId` (wall-clock time plus
`Math.random`) is modelled as an injectable identifier stream
`gen : Nat → Str` together with an invocation counter, following the
design note of the specification that identifier generation should be
treated as an injectable, seedable capability.
-/

namespace PikeSRE

/-- JavaScript strings are modelled as lists of characters. -/
abbrev Str := List Char

/-- JavaScript `input.slice(a, b)` for `0 ≤ a`, `0 ≤ b` (already clamped):
take the characters with indices in `[a, b)`; empty when `a ≥ b`. -/
def extract (t : Str) (a b : Nat) : Str := (t.drop a).take (b - a)

/-- JavaScript `str.split(sep)` for a single-character separator: `""`
splits to `[""]`, separators at the ends produce empty fields. -/
def splitOnChar (sep : Char) : Str → List Str
  | [] => [[]]
  | c :: t =>
    if c = sep then [] :: splitOnChar sep t
    else
      match splitOnChar sep t with
      | [] => [[c]]
      | f :: r => (c :: f) :: r

/-- `parsePath` from template.ts: split a key on `/` and drop empty
segments. -/
def parsePath (path : Str) : List Str :=
  (splitOnChar (Char.ofNat 47) path).filter (fun s => s.length ≠ 0)

/-- Decimal digit character for a value below ten. -/
def digitChar (d : Nat) : Char := Char.ofNat (48 + d)

/-- Little-endian-to-big-endian decimal digit accumulation; `fuel ≥ n`
makes the division chain reach 0. -/
def natDigitsAux : Nat → Nat → Str
  | 0, _ => []
  | fuel + 1, n => if n = 0 then [] else natDigitsAux fuel (n / 10) ++ [digitChar (n % 10)]

/-- Decimal representation of a natural number, as JavaScript string
interpolation (`` `${i}` ``) produces it: most significant digit first,
`0 ↦ "0"`. -/
def natDigits (n : Nat) : Str :=
  if n = 0 then [digitChar 0] else natDigitsAux n n

/-- Result of one successful `exec` of a host regular expression: the
half-open span `[start, stop)` of the full match and the values of the
numbered capture groups (`grps` lists groups `1..k`; an entry is `none`
when the group did not participate in the match). -/
structure MatchData where
  start : Nat
  stop : Nat
  grps : List (Option Str)
deriving Repr, DecidableEq

/-- The host regular-expression capability consumed by the library (the
specification's "external regex evaluation" primitive).  `exec t i` is the
global-scan step: the leftmost match of the pattern in `t` whose start is
at least `i`, or `none`.  `wf` records the host guarantees the library
relies on: a reported match starts at or after the scan position and lies
within the text. -/
structure RePat where
  exec : Str → Nat → Option MatchData
  wf : ∀ t i m, exec t i = some m → i ≤ m.start ∧ m.start ≤ m.stop ∧ m.stop ≤ t.length

/-- A match record as built by `findMatches` in commands.ts:
`{ text, start, end, groups }` where `groups = [...match]` puts the full
match text at index 0 followed by the capture groups. -/
structure MatchRec where
  text : Str
  start : Nat
  stop : Nat
  groups : List (Option Str)
deriving Repr, DecidableEq

/-- Loop body of `findMatches`: repeatedly `exec` from the running
`lastIndex`, collecting match records; a zero-length match advances the
scan position by one extra unit (the `global.lastIndex++` guard).  `fuel`
bounds the number of iterations; since the scan position strictly
increases and no match can start beyond the end of the text,
`t.length + 2` iterations always reach the terminating `none`. -/
def findMatchesAux (p : RePat) (t : Str) : Nat → Nat → List MatchRec
  | 0, _ => []
  | fuel + 1, li =>
    match p.exec t li with
    | none => []
    | some m =>
      { text := extract t m.start m.stop
        start := m.start
        stop := m.stop
        groups := some (extract t m.start m.stop) :: m.grps } ::
      findMatchesAux p t fuel (if m.stop = m.start then m.stop + 1 else m.stop)

/-- `findMatches` from commands.ts: all non-overlapping matches of the
pattern in the text, leftmost first, scanning resuming after each match
(one past it for zero-length matches). -/
def findMatches (p : RePat) (t : Str) : List MatchRec :=
  findMatchesAux p t (t.length + 2) 0

/-- A command is a pure string transformer (types.ts `Command`). -/
abbrev Cmd := Str → Str

/-- Loop of the `x` command: gap before each match kept verbatim, each
match text replaced by `cmd` of it, trailing text kept verbatim. -/
def xLoop (t : Str) (cmd : Cmd) : Nat → List MatchRec → Str
  | le, [] => t.drop le
  | le, m :: ms => extract t le m.start ++ cmd m.text ++ xLoop t cmd m.stop ms

/-- `x` from commands.ts: transform every match, keep non-matching text. -/
def xCmd (p : RePat) (cmd : Cmd) : Cmd := fun input =>
  let ms := findMatches p input
  if ms.isEmpty then input else xLoop input cmd 0 ms

/-- Loop of the `y` command: `cmd` applied to each non-empty gap, matches
kept verbatim, `cmd` applied to the trailing text when non-empty. -/
def yLoop (t : Str) (cmd : Cmd) : Nat → List MatchRec → Str
  | le, [] => if le < t.length then cmd (t.drop le) else []
  | le, m :: ms =>
    (if le < m.start then cmd (extract t le m.start) else []) ++ m.text ++
      yLoop t cmd m.stop ms

/-- `y` from commands.ts: transform every non-matching region, keep the
matches; with no match at all the whole input goes through `cmd`. -/
def yCmd (p : RePat) (cmd : Cmd) : Cmd := fun input =>
  let ms := findMatches p input
  if ms.isEmpty then cmd input else yLoop input cmd 0 ms

/-- Host `test` semantics for a regex without the global flag: scan from
position 0, ignore and leave `lastIndex` untouched. -/
def testFrom0 (p : RePat) (t : Str) : Bool := (p.exec t 0).isSome

/-- `g` from commands.ts for a non-global pattern: run `cmd` only when the
pattern matches somewhere, else return the input unchanged. -/
def gCmd (p : RePat) (cmd : Cmd) : Cmd := fun input =>
  if testFrom0 p input then cmd input else input

/-- `v` from commands.ts for a non-global pattern: run `cmd` only when the
pattern does not match anywhere. -/
def vCmd (p : RePat) (cmd : Cmd) : Cmd := fun input =>
  if testFrom0 p input then input else cmd input

/-- `p` from commands.ts: identity. -/
def pCmd : Cmd := fun input => input

/-- `d` from commands.ts: constant empty string. -/
def dCmd : Cmd := fun _ => []

/-- `c` from commands.ts: constant replacement string. -/
def cCmd (replacement : Str) : Cmd := fun _ => replacement

/-- Expansion of a replacement string against one match, modelling the
host's substitution rules used by `String.prototype.replace`: `$$` is a
literal dollar, `$&` is the full match, `$n`/`$nn` is capture group `n`
(two digits preferred when that group exists, invalid references kept
literally); everything else is copied verbatim. -/
def expandRepl (matchText : Str) (grps : List (Option Str)) : Str → Str
  | [] => []
  | c :: rest =>
    if c = Char.ofNat 36 then
      match rest with
      | [] => [c]
      | c2 :: rest2 =>
        if c2 = Char.ofNat 36 then c :: expandRepl matchText grps rest2
        else if c2 = Char.ofNat 38 then matchText ++ expandRepl matchText grps rest2
        else if c2.isDigit then
          match rest2 with
          | c3 :: rest3 =>
            if c3.isDigit ∧ (c2.toNat - 48) * 10 + (c3.toNat - 48) ≤ grps.length ∧
                (c2.toNat - 48) * 10 + (c3.toNat - 48) ≥ 1 then
              ((grps.getD ((c2.toNat - 48) * 10 + (c3.toNat - 48) - 1) none).getD []) ++
                expandRepl matchText grps rest3
            else if 1 ≤ c2.toNat - 48 ∧ c2.toNat - 48 ≤ grps.length then
              ((grps.getD (c2.toNat - 48 - 1) none).getD []) ++
                expandRepl matchText grps (c3 :: rest3)
            else c :: c2 :: expandRepl matchText grps (c3 :: rest3)
          | [] =>
            if 1 ≤ c2.toNat - 48 ∧ c2.toNat - 48 ≤ grps.length then
              (grps.getD (c2.toNat - 48 - 1) none).getD []
            else [c, c2]
        else c :: c2 :: expandRepl matchText grps rest2
    else c :: expandRepl matchText grps rest

/-- Rebuild loop of the `s` command: gap kept, each match replaced by the
expansion of the replacement string against that match. -/
def sLoop (t : Str) (repl : Str) : Nat → List MatchRec → Str
  | le, [] => t.drop le
  | le, m :: ms =>
    extract t le m.start ++ expandRepl m.text m.groups.tail repl ++
      sLoop t repl m.stop ms

/-- `s` from commands.ts: global substitution.  The code hands the work to
the host's `String.prototype.replace` on a fresh global copy of the
pattern; that is behaviourally the rebuild of the text from the same
global-scan matches with each match replaced by the expanded replacement
string, which is how it is modelled here. -/
def sCmd (p : RePat) (replacement : Str) : Cmd := fun input =>
  sLoop input replacement 0 (findMatches p input)

/-- Clamp a possibly-negative JavaScript index into `[0, len]`:
`i < 0 ↦ max 0 (len + i)`, otherwise `min i len`. -/
def clampIdx (len : Nat) (i : Int) : Nat :=
  if i < 0 then ((len : Int) + i).toNat else min i.toNat len

/-- Clamp the optional end index: absent means the end of the string. -/
def clampEndIdx (len : Nat) (e : Option Int) : Nat :=
  match e with
  | none => len
  | some i => clampIdx len i

/-- `n` from commands.ts: select the character range `[start, end)`
(negative indices counting from the end, indices clamped), apply `cmd` to
the selected substring and keep the prefix and suffix verbatim. -/
def nCmd (start : Int) (stop : Option Int) (cmd : Cmd) : Cmd := fun input =>
  let len := input.length
  let s := clampIdx len start
  let e := clampEndIdx len stop
  input.take s ++ cmd (extract input s e) ++ input.drop e

/-- Newline character. -/
def nlChar : Char := Char.ofNat 10

/-- `l` from commands.ts: like `n` but on the newline-split line list; the
selected lines are joined, transformed, re-split on newline and spliced
back between the untouched lines. -/
def lCmd (start : Int) (stop : Option Int) (cmd : Cmd) : Cmd := fun input =>
  let lines := splitOnChar nlChar input
  let len := lines.length
  let s := clampIdx len start
  let e := clampEndIdx len stop
  let before := lines.take s
  let selected := (lines.drop s).take (e - s)
  let after := lines.drop e
  let transformed := splitOnChar nlChar (cmd (List.intercalate [nlChar] selected))
  List.intercalate [nlChar] (before ++ transformed ++ after)

/-- `pipe` from commands.ts: left-to-right composition, empty pipe is the
identity. -/
def pipeCmd (cmds : List Cmd) : Cmd := fun input =>
  cmds.foldl (fun acc cmd => cmd acc) input

/-- `xAll` from commands.ts: the transformed texts of all matches. -/
def xAllCmd (p : RePat) (cmd : Cmd) (input : Str) : List Str :=
  (findMatches p input).map (fun m => cmd m.text)

/-- `xFirst` from commands.ts: transform the first match only (the result
of `input.match(pattern)`), unchanged input when there is none. -/
def xFirstCmd (p : RePat) (cmd : Cmd) : Cmd := fun input =>
  match p.exec input 0 with
  | none => input
  | some m => cmd (extract input m.start m.stop)

/-- `ifMatch` from commands.ts for a non-global pattern: branch on the
existence test. -/
def ifMatchCmd (p : RePat) (thenCmd elseCmd : Cmd) : Cmd := fun input =>
  if testFrom0 p input then thenCmd input else elseCmd input

/-- Scan for the first occurrence of the literal word `w` at position `i`
or later; `none` when the scan position is already past the end. -/
def litFindAux (w t : Str) : Nat → Nat → Option Nat
  | 0, _ => none
  | fuel + 1, i =>
    if t.length < i then none
    else if w.isPrefixOf (t.drop i) then some i
    else litFindAux w t fuel (i + 1)

/-- A found occurrence starts at or after the scan position and fits
inside the text. -/
theorem litFindAux_wf (w t : Str) :
    ∀ fuel i s, litFindAux w t fuel i = some s → i ≤ s ∧ s + w.length ≤ t.length := by
  intro fuel
  induction fuel with
  | zero => intro i s h; simp [litFindAux] at h
  | succ fuel ih =>
    intro i s h
    simp only [litFindAux] at h
    split at h
    · exact absurd h (by simp)
    · next hlen =>
      split at h
      · next hpre =>
        cases h
        refine ⟨Nat.le_refl _, ?_⟩
        have hp := (List.isPrefixOf_iff_prefix.mp hpre).length_le
        simp only [List.length_drop] at hp
        omega
      · have := ih (i + 1) s h
        omega

/-- Concrete host regex for a literal word (no capture groups): the
leftmost occurrence of `w` at or after the scan position.  Used to
instantiate the abstract host capability on concrete inputs. -/
def litPat (w : Str) : RePat where
  exec := fun t i => (litFindAux w t (t.length + 2) i).map
    (fun s => { start := s, stop := s + w.length, grps := [] })
  wf := by
    intro t i m h
    simp only [Option.map_eq_some'] at h
    obtain ⟨s, hs, rfl⟩ := h
    have := litFindAux_wf w t (t.length + 2) i s hs
    simp only
    omega

/-- Well-formedness of a match list as produced by `findMatchesAux` when
scanning from `li`: each match starts at or after the running scan
position, lies inside the text, its recorded text is the corresponding
slice, and the tail is well-formed from the advanced scan position. -/
def SpanOk (t : Str) : Nat → List MatchRec → Prop
  | _, [] => True
  | li, m :: ms =>
    li ≤ m.start ∧ m.start ≤ m.stop ∧ m.stop ≤ t.length ∧
      m.text = extract t m.start m.stop ∧
      SpanOk t (if m.stop = m.start then m.stop + 1 else m.stop) ms

/-- Weakening: a match list well-formed from `li` is well-formed from any
earlier scan position. -/
theorem SpanOk.mono {t : Str} {li li' : Nat} {ms : List MatchRec}
    (h : SpanOk t li ms) (hle : li' ≤ li) : SpanOk t li' ms := by
  cases ms with
  | nil => trivial
  | cons m ms =>
    obtain ⟨h1, h2⟩ := h
    exact ⟨Nat.le_trans hle h1, h2⟩

/-- The matches returned by the `findMatches` loop are well-formed. -/
theorem findMatchesAux_spanOk (p : RePat) (t : Str) :
    ∀ fuel li, SpanOk t li (findMatchesAux p t fuel li) := by
  intro fuel
  induction fuel with
  | zero => intro li; trivial
  | succ fuel ih =>
    intro li
    simp only [findMatchesAux]
    cases hex : p.exec t li with
    | none => trivial
    | some m =>
      have hwf := p.wf t li m hex
      exact ⟨hwf.1, hwf.2.1, hwf.2.2, rfl, ih _⟩

/-- The matches returned by `findMatches` are well-formed from 0. -/
theorem findMatches_spanOk (p : RePat) (t : Str) :
    SpanOk t 0 (findMatches p t) :=
  findMatchesAux_spanOk p t (t.length + 2) 0

/-- Two adjacent slices concatenate to the enclosing slice-to-end. -/
theorem extract_append_drop (t : Str) {a b : Nat} (hab : a ≤ b) :
    extract t a b ++ t.drop b = t.drop a := by
  have hb : t.drop b = (t.drop a).drop (b - a) := by
    rw [List.drop_drop]
    congr 1
    omega
  rw [extract, hb, List.take_append_drop]

/-- The interleaved list of structural regions determined by a match list:
the gap before each match, the match text itself, and finally the text
after the last match.  This is the partition of the input that `x`
transforms on the match components and `y` transforms on the gap
components. -/
def spanPieces (t : Str) : Nat → List MatchRec → List Str
  | le, [] => [t.drop le]
  | le, m :: ms => extract t le m.start :: m.text :: spanPieces t m.stop ms

/-- Concatenating the structural regions of a well-formed match list
reconstructs the text from the starting offset. -/
theorem spanPieces_join (t : Str) :
    ∀ ms le, SpanOk t le ms → (spanPieces t le ms).flatten = t.drop le := by
  intro ms
  induction ms with
  | nil => intro le _; simp [spanPieces]
  | cons m ms ih =>
    intro le h
    obtain ⟨h1, h2, h3, h4, h5⟩ := h
    have htail : SpanOk t m.stop ms :=
      h5.mono (by split <;> omega)
    simp only [spanPieces, List.flatten_cons]
    rw [ih m.stop htail, h4, extract_append_drop t h2, extract_append_drop t h1]

/-- The `x` rebuild loop with the identity command reconstructs the text
from the starting offset. -/
theorem xLoop_id (t : Str) :
    ∀ ms le, SpanOk t le ms → xLoop t (fun s => s) le ms = t.drop le := by
  intro ms
  induction ms with
  | nil => intro le _; simp [xLoop]
  | cons m ms ih =>
    intro le h
    obtain ⟨h1, h2, h3, h4, h5⟩ := h
    have htail : SpanOk t m.stop ms :=
      h5.mono (by split <;> omega)
    simp only [xLoop]
    rw [ih m.stop htail, h4, List.append_assoc, extract_append_drop t h2,
      extract_append_drop t h1]

/-- The `y` rebuild loop with the identity command reconstructs the text
from the starting offset. -/
theorem yLoop_id (t : Str) :
    ∀ ms le, SpanOk t le ms → yLoop t (fun s => s) le ms = t.drop le := by
  intro ms
  induction ms with
  | nil =>
    intro le _
    by_cases hle : le < t.length
    · simp [yLoop, hle]
    · simp only [yLoop, if_neg hle]
      exact (List.drop_eq_nil_of_le (by omega)).symm
  | cons m ms ih =>
    intro le h
    obtain ⟨h1, h2, h3, h4, h5⟩ := h
    have htail : SpanOk t m.stop ms :=
      h5.mono (by split <;> omega)
    simp only [yLoop]
    rw [ih m.stop htail, h4]
    have hgap : (if le < m.start then extract t le m.start else []) =
        extract t le m.start := by
      split
      · rfl
      · have : le = m.start := by omega
        simp [this, extract]
    rw [hgap, List.append_assoc, extract_append_drop t h2, extract_append_drop t h1]

end PikeSRE

namespace PikeSRE

/-- Claim C8: for every text and pattern, the match spans used by `x` and
the non-match spans used by `y` form a partition of the text —
concatenating the gaps and match texts in original order reconstructs the
input exactly, and consequently `x(P, identity)` and `y(P, identity)` are
the identity. -/
theorem C8_x_y_partition (p : RePat) (t : Str) :
    (spanPieces t 0 (findMatches p t)).flatten = t ∧
      xCmd p (fun s => s) t = t ∧ yCmd p (fun s => s) t = t := by
  have hok := findMatches_spanOk p t
  refine ⟨?_, ?_, ?_⟩
  · rw [spanPieces_join t _ 0 hok, List.drop_zero]
  · simp only [xCmd]
    split
    · rfl
    · rw [xLoop_id t _ 0 hok, List.drop_zero]
  · simp only [yCmd]
    split
    · rfl
    · rw [yLoop_id t _ 0 hok, List.drop_zero]

end PikeSRE

namespace PikeSRE

/-- A host `RegExp` object as the commands receive it: the pattern, its
global flag, and the mutable `lastIndex` slot that `test` reads and
writes when the global flag is set. -/
structure RegexObj where
  pat : RePat
  glob : Bool
  li : Nat

/-- Host `RegExp.prototype.test` on an object: with the global flag the
scan starts at `lastIndex`, which is set to the match end on success and
reset to 0 on failure; without it the scan starts at 0 and `lastIndex` is
untouched. -/
def testStep (r : RegexObj) (t : Str) : Bool × Nat :=
  if r.glob then
    match r.pat.exec t r.li with
    | some m => (true, m.stop)
    | none => (false, 0)
  else ((r.pat.exec t 0).isSome, r.li)

/-- One invocation of a command built by `g`, returning the output and the
`lastIndex` the closed-over regex object holds afterwards. -/
def gRun (r : RegexObj) (cmd : Cmd) (t : Str) : Str × Nat :=
  let br := testStep r t
  (if br.1 then cmd t else t, br.2)

/-- One invocation of a command built by `v`. -/
def vRun (r : RegexObj) (cmd : Cmd) (t : Str) : Str × Nat :=
  let br := testStep r t
  (if br.1 then t else cmd t, br.2)

/-- One invocation of a command built by `ifMatch`. -/
def ifMatchRun (r : RegexObj) (thenCmd elseCmd : Cmd) (t : Str) : Str × Nat :=
  let br := testStep r t
  (if br.1 then thenCmd t else elseCmd t, br.2)

/-- One invocation of a command built by `x`: `findMatches` compiles a
fresh global copy of the pattern (own `lastIndex` starting at 0), so the
object's slot is neither read nor written. -/
def xRun (r : RegexObj) (cmd : Cmd) (t : Str) : Str × Nat :=
  (xCmd r.pat cmd t, r.li)

/-- One invocation of a command built by `y` (fresh copy, as for `x`). -/
def yRun (r : RegexObj) (cmd : Cmd) (t : Str) : Str × Nat :=
  (yCmd r.pat cmd t, r.li)

/-- One invocation of a command built by `s` (fresh global copy). -/
def sRun (r : RegexObj) (repl : Str) (t : Str) : Str × Nat :=
  (sCmd r.pat repl t, r.li)

/-- One invocation of `xAll` (fresh copy through `findMatches`). -/
def xAllRun (r : RegexObj) (cmd : Cmd) (t : Str) : List Str × Nat :=
  (xAllCmd r.pat cmd t, r.li)

/-- One invocation of a command built by `xFirst`: `input.match(pattern)`
always yields the first match scanning from 0.  For a non-global pattern
the host's `match` never touches `lastIndex`; for a global pattern it
writes `lastIndex` — it resets it to 0 before the collection loop and the
final failing `exec` of the loop (or of a matchless input) leaves it at 0
— so the call ends with `lastIndex = 0` whatever it held before. -/
def xFirstRun (r : RegexObj) (cmd : Cmd) (t : Str) : Str × Nat :=
  (xFirstCmd r.pat cmd t, if r.glob then 0 else r.li)

end PikeSRE

namespace PikeSRE

/-- One recorded step of the fluent `SRE` builder (dsl.ts): the chainable
methods `x, y, g, v, s, c, d, p, n, l`. -/
inductive FStep where
  | fx (p : RePat)
  | fy (p : RePat)
  | fg (p : RePat)
  | fv (p : RePat)
  | fs (p : RePat) (repl : Str)
  | fc (v : Str)
  | fd
  | fp
  | fn (start : Int) (stop : Option Int)
  | fl (start : Int) (stop : Option Int)

/-- The command each fluent method pushes onto the builder (dsl.ts):
`x`/`y` run the `addStructural` rebuild that keeps every gap and every
match text verbatim; `g`/`v` return the input when the gate passes and the
empty string otherwise; `s`/`c`/`d`/`p` push the commands.ts commands;
`n`/`l` run the `addRange` immediate selection, returning only the sliced
range. -/
def fluentStep : FStep → Str → Str
  | .fx p, t =>
    let ms := findMatches p t
    if ms.isEmpty then t else xLoop t (fun s => s) 0 ms
  | .fy p, t =>
    let ms := findMatches p t
    if ms.isEmpty then t else xLoop t (fun s => s) 0 ms
  | .fg p, t => if testFrom0 p t then t else []
  | .fv p, t => if testFrom0 p t then [] else t
  | .fs p r, t => sCmd p r t
  | .fc v, _ => v
  | .fd, _ => []
  | .fp, t => t
  | .fn a b, t => extract t (clampIdx t.length a) (clampEndIdx t.length b)
  | .fl a b, t =>
    let lines := splitOnChar nlChar t
    let s := clampIdx lines.length a
    let e := clampEndIdx lines.length b
    List.intercalate [nlChar] ((lines.drop s).take (e - s))

/-- `sre(input). … .value()`: the builder holds the input and `value()`
left-folds the recorded commands over it. -/
def sreValue (input : Str) (steps : List FStep) : Str :=
  steps.foldl (fun acc st => fluentStep st acc) input

end PikeSRE

namespace PikeSRE

/-- One compiled glob segment (glob.ts `GlobSegment`). -/
inductive GlobSeg where
  | literal (v : Str)
  | single
  | double
deriving Repr, DecidableEq

/-- `parseGlobSegments` from glob.ts: split on `/`, drop empty parts, tag
`**`, `*` and literal segments. -/
def parseGlobSegments (pattern : Str) : List GlobSeg :=
  ((splitOnChar (Char.ofNat 47) pattern).filter (fun s => s.length ≠ 0)).map
    (fun part =>
      if part = ['*', '*'] then GlobSeg.double
      else if part = ['*'] then GlobSeg.single
      else GlobSeg.literal part)

/-- `matchSegments` from glob.ts: a `double` segment tries consuming
0, 1, 2, … path segments (the suffixes of the remaining path, in order),
`single` consumes exactly one, a literal must equal the next segment, and
an exhausted glob requires an exhausted path. -/
def matchSeg : List GlobSeg → List Str → Bool
  | [], ps => ps.isEmpty
  | GlobSeg.double :: gs, ps => ps.tails.any (fun rest => matchSeg gs rest)
  | GlobSeg.single :: _, [] => false
  | GlobSeg.single :: gs, _ :: ps => matchSeg gs ps
  | GlobSeg.literal _ :: _, [] => false
  | GlobSeg.literal v :: gs, q :: ps => v == q && matchSeg gs ps

/-- `globMatch` from glob.ts (via `compileGlob(...).matches`). -/
def globMatch (pattern path : Str) : Bool :=
  matchSeg (parseGlobSegments pattern) (parsePath path)

/-- Continuation argument of the `extract` recursion inside
`extractGlobCaptures`: either a plain call `extract(gi, pi)` (`seg`) or
the `skip`-loop of a `double` segment (`dbl`), where `front` holds the
path segments tentatively consumed by the `double` so far. -/
inductive EGoArg where
  | seg (glob : List GlobSeg) (ps : List Str)
  | dbl (gs : List GlobSeg) (front : List Str) (rest : List Str)

/-- The `extract` closure of `extractGlobCaptures` (glob.ts), with the
mutated outer `captures` array threaded explicitly as `acc`: a `single`
pushes its segment before recursing (the push survives a failing branch,
as in the source); a `double` tries each skip count in order, keeps all
pushes performed by failed branches, and appends its own consumed run
after the successful recursive call returns.  `fuel` bounds the recursion
depth; `2·|glob| + |path| + 1` suffices. -/
def extractGo : Nat → EGoArg → List Str → Bool × List Str
  | 0, _, acc => (false, acc)
  | fuel + 1, EGoArg.seg glob ps, acc =>
    match glob with
    | [] => (ps.isEmpty, acc)
    | GlobSeg.double :: gs => extractGo fuel (EGoArg.dbl gs [] ps) acc
    | GlobSeg.single :: gs =>
      match ps with
      | [] => (false, acc)
      | q :: ps2 => extractGo fuel (EGoArg.seg gs ps2) (acc ++ [q])
    | GlobSeg.literal v :: gs =>
      match ps with
      | [] => (false, acc)
      | q :: ps2 => if v = q then extractGo fuel (EGoArg.seg gs ps2) acc else (false, acc)
  | fuel + 1, EGoArg.dbl gs front rest, acc =>
    let r := extractGo fuel (EGoArg.seg gs rest) acc
    if r.1 then (true, r.2 ++ front)
    else
      match rest with
      | [] => (false, r.2)
      | q :: rest2 => extractGo fuel (EGoArg.dbl gs (front ++ [q]) rest2) r.2

/-- `extractGlobCaptures` from glob.ts: `null` when the glob does not
match, otherwise the contents of the `captures` array after the search. -/
def extractGlobCaptures (pattern path : Str) : Option (List Str) :=
  let segments := parseGlobSegments pattern
  let pathParts := parsePath path
  let r := extractGo (2 * segments.length + pathParts.length + 1)
    (EGoArg.seg segments pathParts) []
  if r.1 then some r.2 else none

end PikeSRE

namespace PikeSRE

/-- The boolean component of the `extract` recursion agrees with
`matchSegments`: the capture pushes never influence the control flow. -/
theorem extractGo_matches : ∀ fuel,
    (∀ glob ps acc, 2 * glob.length + ps.length + 1 ≤ fuel →
      (extractGo fuel (EGoArg.seg glob ps) acc).1 = matchSeg glob ps) ∧
    (∀ gs front rest acc, 2 * gs.length + rest.length + 2 ≤ fuel →
      (extractGo fuel (EGoArg.dbl gs front rest) acc).1 =
        rest.tails.any (fun r => matchSeg gs r)) := by
  intro fuel
  induction fuel with
  | zero =>
    constructor
    · intro glob ps acc hf; omega
    · intro gs front rest acc hf; omega
  | succ fuel ih =>
    obtain ⟨ihseg, ihdbl⟩ := ih
    constructor
    · intro glob ps acc hf
      cases glob with
      | nil => rfl
      | cons s gs =>
        cases s with
        | double =>
          simp only [extractGo, matchSeg]
          exact ihdbl gs [] ps acc (by simp at hf ⊢; omega)
        | single =>
          cases ps with
          | nil => rfl
          | cons q ps2 =>
            simp only [extractGo, matchSeg]
            exact ihseg gs ps2 (acc ++ [q]) (by simp at hf ⊢; omega)
        | literal v =>
          cases ps with
          | nil => rfl
          | cons q ps2 =>
            simp only [extractGo, matchSeg]
            by_cases hvq : v = q
            · rw [if_pos hvq, ihseg gs ps2 acc (by simp at hf ⊢; omega)]
              subst hvq
              simp
            · rw [if_neg hvq]
              have : (v == q) = false := beq_false_of_ne hvq
              simp [this]
    · intro gs front rest acc hf
      have h1 : (extractGo fuel (EGoArg.seg gs rest) acc).1 = matchSeg gs rest :=
        ihseg gs rest acc (by omega)
      cases rest with
      | nil =>
        simp only [extractGo, h1]
        simp only [List.tails, List.any_cons, List.any_nil, Bool.or_false]
        split
        · next hm => simp [hm]
        · next hm => simpa using (Bool.not_eq_true _).mp hm
      | cons q rest2 =>
        simp only [extractGo, h1]
        rw [List.tails_cons, List.any_cons]
        split
        · next hm => simp [hm]
        · next hm =>
          have hm' : matchSeg gs (q :: rest2) = false := (Bool.not_eq_true _).mp hm
          rw [hm', Bool.false_or]
          exact ihdbl gs (front ++ [q]) rest2
            (extractGo fuel (EGoArg.seg gs (q :: rest2)) acc).2 (by simp at hf ⊢; omega)

/-- Path segments aligned with `single` wildcards, in left-to-right
segment order: the capture sequence the specification describes for a
glob without `double` wildcards (where the alignment is forced to be
one-to-one). -/
def alignedCaptures : List GlobSeg → List Str → List Str
  | GlobSeg.single :: gs, q :: ps => q :: alignedCaptures gs ps
  | GlobSeg.literal _ :: gs, _ :: ps => alignedCaptures gs ps
  | _, _ => []

/-- For a glob without `double` segments, a successful extraction appends
exactly the singles-aligned path segments, in order, to the incoming
accumulator. -/
theorem extractGo_noDouble : ∀ fuel glob ps acc,
    (∀ s ∈ glob, s ≠ GlobSeg.double) →
    (extractGo fuel (EGoArg.seg glob ps) acc).1 = true →
    (extractGo fuel (EGoArg.seg glob ps) acc).2 = acc ++ alignedCaptures glob ps := by
  intro fuel
  induction fuel with
  | zero => intro glob ps acc _ h; simp [extractGo] at h
  | succ fuel ih =>
    intro glob ps acc hnd hok
    cases glob with
    | nil => simp [extractGo, alignedCaptures]
    | cons s gs =>
      cases s with
      | double => exact absurd rfl (hnd GlobSeg.double (by simp))
      | single =>
        cases ps with
        | nil => simp [extractGo] at hok
        | cons q ps2 =>
          simp only [extractGo] at hok ⊢
          rw [ih gs ps2 (acc ++ [q]) (fun s hs => hnd s (List.mem_cons_of_mem _ hs)) hok]
          simp [alignedCaptures]
      | literal v =>
        cases ps with
        | nil => simp [extractGo] at hok
        | cons q ps2 =>
          simp only [extractGo] at hok ⊢
          by_cases hvq : v = q
          · rw [if_pos hvq] at hok ⊢
            rw [ih gs ps2 acc (fun s hs => hnd s (List.mem_cons_of_mem _ hs)) hok]
            simp [alignedCaptures]
          · rw [if_neg hvq] at hok
            simp at hok
  
end PikeSRE

namespace PikeSRE

/-- A JSON-like runtime value: the payloads (`unknown` data) flowing
through the template substitutor and the pattern engine. -/
inductive JValue where
  | str (s : Str)
  | num (n : Int)
  | jbool (b : Bool)
  | jnull
  | arr (xs : List JValue)
  | obj (fields : List (Str × JValue))
deriving Repr

/-- Decimal text of an integer, as JavaScript `String(value)` renders
integral numbers. -/
def intToStr (n : Int) : Str :=
  if n < 0 then Char.ofNat 45 :: natDigits n.natAbs else natDigits n.natAbs

/-- Minimal JSON string escaping (backslash, quote, newline); enough for
the canonical serialization the library feeds to regex tests and
templates. -/
def jsonEscape : Str → Str
  | [] => []
  | c :: t =>
    (if c = Char.ofNat 34 ∨ c = Char.ofNat 92 then [Char.ofNat 92, c]
     else if c = nlChar then [Char.ofNat 92, Char.ofNat 110]
     else [c]) ++ jsonEscape t

mutual

/-- `JSON.stringify` as the library uses it: canonical serialization of a
structured value (object key order = insertion order). -/
def jsonStringify : JValue → Str
  | JValue.str s => Char.ofNat 34 :: jsonEscape s ++ [Char.ofNat 34]
  | JValue.num n => intToStr n
  | JValue.jbool b => if b then "true".data else "false".data
  | JValue.jnull => "null".data
  | JValue.arr xs => Char.ofNat 91 :: jsonStringifyList xs ++ [Char.ofNat 93]
  | JValue.obj fs => Char.ofNat 123 :: jsonStringifyFields fs ++ [Char.ofNat 125]

/-- Comma-separated serialization of array elements. -/
def jsonStringifyList : List JValue → Str
  | [] => []
  | [x] => jsonStringify x
  | x :: xs => jsonStringify x ++ Char.ofNat 44 :: jsonStringifyList xs

/-- Comma-separated serialization of object fields. -/
def jsonStringifyFields : List (Str × JValue) → Str
  | [] => []
  | [(k, v)] => Char.ofNat 34 :: jsonEscape k ++ [Char.ofNat 34, Char.ofNat 58] ++ jsonStringify v
  | (k, v) :: fs =>
    Char.ofNat 34 :: jsonEscape k ++ [Char.ofNat 34, Char.ofNat 58] ++ jsonStringify v ++
      Char.ofNat 44 :: jsonStringifyFields fs

end

/-- First field with the given key in an object (JavaScript property
lookup; object keys are unique). -/
def lookupField : List (Str × JValue) → Str → Option JValue
  | [], _ => none
  | (k, v) :: fs, key => if k = key then some v else lookupField fs key

/-- Decimal parse of a digits-only string (most significant first). -/
def decodeDigits : Str → Option Nat
  | [] => none
  | s =>
    if s.all Char.isDigit then
      some (s.foldl (fun acc c => acc * 10 + (c.toNat - 48)) 0)
    else none

/-- JavaScript property access `value[part]` on an array: only a
canonical decimal index hits an element. -/
def arrIndex (part : Str) : Option Nat :=
  match decodeDigits part with
  | some n => if natDigits n = part then some n else none
  | none => none

/-- Walk of `getNestedValue` (template.ts): `null`/`undefined` and
non-object values stop the walk with `undefined`; objects index by key,
arrays by canonical decimal index.  The final value may itself be `null`. -/
def getNestedGo : Option JValue → List Str → Option JValue
  | cur, [] => cur
  | cur, part :: rest =>
    match cur with
    | none => none
    | some v =>
      match v with
      | JValue.jnull => none
      | JValue.obj fs => getNestedGo (lookupField fs part) rest
      | JValue.arr xs =>
        getNestedGo (match arrIndex part with
          | some i => xs.get? i
          | none => none) rest
      | _ => none

/-- `getNestedValue` from template.ts: split the dotted path and walk. -/
def getNestedValue (d : JValue) (path : Str) : Option JValue :=
  getNestedGo (some d) (splitOnChar (Char.ofNat 46) path)

/-- Stringification rule of the `${data.*}` replacer (template.ts):
missing or `null` values become the empty string, strings pass through,
numbers and booleans use their textual form, structured values use the
canonical serialization. -/
def dataValueToStr : Option JValue → Str
  | none => []
  | some JValue.jnull => []
  | some (JValue.str s) => s
  | some (JValue.num n) => intToStr n
  | some (JValue.jbool b) => if b then "true".data else "false".data
  | some v => jsonStringify v

/-- Character class `[a-zA-Z0-9_.]` of the `${data.*}` placeholder. -/
def isIdentChar (c : Char) : Bool :=
  c.isAlpha || c.isDigit || c = Char.ofNat 95 || c = Char.ofNat 46

/-- Literal prefix `"${data."` of the data placeholder. -/
def dataPrefix : Str := "$\x7bdata.".data

/-- Scanner for the pass `result.replace(/\$\{data\.([a-zA-Z0-9_.]+)\}/g,
fn)`: at each position, match the literal prefix, a non-empty maximal run of
identifier characters and a closing brace (the class excludes the brace,
so greedy matching cannot backtrack into a different split); on a match
splice the looked-up value (the replacer is a function, so no host
`$`-escape processing applies) and continue after the brace, else move on
one character. -/
def dataPassAux (d : JValue) : Nat → Str → Str
  | 0, t => t
  | fuel + 1, t =>
    match t with
    | [] => []
    | c :: rest =>
      if dataPrefix.isPrefixOf t then
        let after := t.drop 7
        let ident := after.takeWhile isIdentChar
        let post := after.drop ident.length
        if ident.length ≠ 0 ∧ post.head? = some (Char.ofNat 125) then
          dataValueToStr (getNestedGo (some d) (splitOnChar (Char.ofNat 46) ident)) ++
            dataPassAux d fuel (post.drop 1)
        else c :: dataPassAux d fuel rest
      else c :: dataPassAux d fuel rest

/-- The `${data.*}` pass over a template string. -/
def dataPass (d : JValue) (t : Str) : Str := dataPassAux d t.length t

end PikeSRE

namespace PikeSRE

/-- `result.replace(new RegExp(escapedLiteral, 'g'), rep)`: replace every
non-overlapping occurrence of the literal `pat`, scanning the original
text left to right; the spliced replacement text is not rescanned.  The
call sites pass a non-empty pattern; `fuel = t.length` suffices since
every step consumes at least one character. -/
def replaceAllAux : Nat → Str → Str → Str → Str
  | 0, t, _, _ => t
  | fuel + 1, t, pat, rep =>
    match t with
    | [] => []
    | c :: rest =>
      if pat.isPrefixOf t && !pat.isEmpty then
        rep ++ replaceAllAux fuel (t.drop pat.length) pat rep
      else c :: replaceAllAux fuel rest pat rep

/-- Global literal replacement (see `replaceAllAux`). -/
def replaceAll (t pat rep : Str) : Str := replaceAllAux t.length t pat rep

/-- The placeholder literal `${N}` for capture index `N`. -/
def phNum (i : Nat) : Str :=
  Char.ofNat 36 :: Char.ofNat 123 :: natDigits i ++ [Char.ofNat 125]

/-- The placeholder literal `${path.N}`. -/
def phPathNum (i : Nat) : Str := "$\x7bpath.".data ++ natDigits i ++ [Char.ofNat 125]

/-- The placeholder literal `${uuid}`. -/
def phUuid : Str := "$\x7buuid\x7d".data

/-- The placeholder literal `${input}`. -/
def phInput : Str := "$\x7binput\x7d".data

/-- The capture-group pass of `substituteString`: for each index
`i < captures.length` in order, globally replace `${i}` by
`captures[i] ?? ''`.  The replacement goes through the host's
`$`-substitution for string replacements (`expandRepl`; the patterns have
no capture groups and match only their own literal text). -/
def capturesPass (caps : List (Option Str)) (t : Str) : Str :=
  (List.range caps.length).foldl
    (fun acc i => replaceAll acc (phNum i) (expandRepl (phNum i) [] ((caps.getD i none).getD []))) t

/-- The path-segment pass of `substituteString`: for each
`i < path.length`, globally replace `${path.i}` by `path[i]`. -/
def pathPass (segs : List Str) (t : Str) : Str :=
  (List.range segs.length).foldl
    (fun acc i => replaceAll acc (phPathNum i) (expandRepl (phPathNum i) [] (segs.getD i []))) t

/-- The substitution context of template.ts (`TemplateContext`): absent
members are `none`; `captures` entries may be absent capture groups. -/
structure TemplateCtx where
  captures : Option (List (Option Str))
  path : Option (List Str)
  data : Option JValue
  input : Option Str

/-- `substituteString` from template.ts, with the identifier source made
explicit: the five passes run in a fixed order — capture groups, path
segments, `${uuid}`, `${input}`, `${data.*}` — each pass rescanning the
output of the previous ones.  The `${uuid}` pass evaluates `generateId()`
exactly once per call (before the replacement, whether or not the
placeholder occurs), so the returned counter is `k + 1` and every
occurrence receives the same identifier `gen k`. -/
def substituteString (template : Str) (ctx : TemplateCtx) (gen : Nat → Str) (k : Nat) :
    Str × Nat :=
  let r1 := match ctx.captures with
    | some caps => capturesPass caps template
    | none => template
  let r2 := match ctx.path with
    | some segs => pathPass segs r1
    | none => r1
  let r3 := replaceAll r2 phUuid (expandRepl phUuid [] (gen k))
  let r4 := match ctx.input with
    | some inp => replaceAll r3 phInput (expandRepl phInput [] inp)
    | none => r3
  let r5 := match ctx.data with
    | some d => dataPass d r4
    | none => r4
  (r5, k + 1)

/-- Specification-side companion of `substituteString` for the identifier
claim: the same five passes with one fixed identifier `id` standing in
for every `${uuid}` occurrence and no invocation counting. -/
def substituteStringOneId (template : Str) (ctx : TemplateCtx) (id : Str) : Str :=
  let r1 := match ctx.captures with
    | some caps => capturesPass caps template
    | none => template
  let r2 := match ctx.path with
    | some segs => pathPass segs r1
    | none => r1
  let r3 := replaceAll r2 phUuid (expandRepl phUuid [] id)
  let r4 := match ctx.input with
    | some inp => replaceAll r3 phInput (expandRepl phInput [] inp)
    | none => r3
  match ctx.data with
  | some d => dataPass d r4
  | none => r4

mutual

/-- `substituteValue` from template.ts: strings are substituted, arrays
recurse elementwise, objects substitute both keys and values (insertion
order), other scalars pass through; the identifier counter threads
through every embedded `substituteString` call in traversal order. -/
def substituteValue (v : JValue) (ctx : TemplateCtx) (gen : Nat → Str) (k : Nat) :
    JValue × Nat :=
  match v with
  | JValue.str s =>
    let r := substituteString s ctx gen k
    (JValue.str r.1, r.2)
  | JValue.arr xs =>
    let r := substituteValueList xs ctx gen k
    (JValue.arr r.1, r.2)
  | JValue.obj fs =>
    let r := substituteValueFields fs ctx gen k
    (JValue.obj r.1, r.2)
  | other => (other, k)

/-- Elementwise substitution over an array. -/
def substituteValueList (xs : List JValue) (ctx : TemplateCtx) (gen : Nat → Str) (k : Nat) :
    List JValue × Nat :=
  match xs with
  | [] => ([], k)
  | x :: rest =>
    let r := substituteValue x ctx gen k
    let rr := substituteValueList rest ctx gen r.2
    (r.1 :: rr.1, rr.2)

/-- Key/value substitution over object fields. -/
def substituteValueFields (fs : List (Str × JValue)) (ctx : TemplateCtx) (gen : Nat → Str)
    (k : Nat) : List (Str × JValue) × Nat :=
  match fs with
  | [] => ([], k)
  | (key, v) :: rest =>
    let rk := substituteString key ctx gen k
    let rv := substituteValue v ctx gen rk.2
    let rr := substituteValueFields rest ctx gen rv.2
    ((rk.1, rv.1) :: rr.1, rr.2)

end

end PikeSRE


namespace PikeSRE

/-- A lexer token definition (dsl.ts `TokenDef`): the name, the pattern
source text (used for capture-group counting), and the skip flag. -/
structure LexDefM where
  name : Str
  src : Str
  skip : Bool

/-- `countGroups` from dsl.ts: count the unescaped `(` characters that are
not followed by `?` (a backslash skips the next character; the scan is
purely character-based and knows nothing about character classes or the
capturing nature of named groups). -/
def countGroups : Str → Nat
  | [] => 0
  | c :: rest =>
    if c = Char.ofNat 92 then
      match rest with
      | [] => 0
      | _ :: t => countGroups t
    else if c = Char.ofNat 40 then
      (if rest.head? = some (Char.ofNat 63) then 0 else 1) + countGroups rest
    else countGroups rest

/-- Offset accumulation of `createLexer`: sub-pattern `i` is assigned the
running offset, which then advances by `1 + countGroups(source_i)`. -/
def groupOffsetsAux : Nat → List Str → List Nat
  | _, [] => []
  | off, s :: rest => off :: groupOffsetsAux (off + 1 + countGroups s) rest

/-- The absolute wrapper capture-group indices `createLexer` precomputes,
starting at 1 (`match[0]` is the full match). -/
def groupOffsets (srcs : List Str) : List Nat := groupOffsetsAux 1 srcs

/-- One `exec` result of the combined alternation: match position, length,
and the full `[...match]` array (index 0 is the full match, then all
groups of the combined pattern). -/
structure CombMatch where
  idx : Nat
  len : Nat
  grps : List (Option Str)

/-- The compiled combined alternation, abstract like `RePat`: global-scan
`exec` with the host guarantee that a match starts at or after the scan
position and fits in the text. -/
structure CombRe where
  cexec : Str → Nat → Option CombMatch
  cwf : ∀ t i m, cexec t i = some m → i ≤ m.idx ∧ m.idx + m.len ≤ t.length

/-- A lexer output token (dsl.ts `LexToken`). -/
structure LexToken where
  type : Str
  value : Str
  grps : List (Option Str)
  start : Nat
  stop : Nat
deriving Repr, DecidableEq

/-- The reserved `ERROR` token kind. -/
def errName : Str := "ERROR".data

/-- Classification of a combined match: the first definition index whose
wrapper group value is defined (`match[groupOffsets[i]] !== undefined`,
scanning definitions in order). -/
def firstDefined (offs : List Nat) (grps : List (Option Str)) : Option Nat :=
  offs.findIdx? (fun off => ((grps.get? off).getD none).isSome)

/-- The scan loop of the lexer returned by `createLexer`, instrumented:
it emits every token paired with the skip flag of the definition that
produced it (`false` for `ERROR` tokens), so that both the emitted and
the consumed-but-suppressed spans are visible.  Mirrors the source loop:
gap before a classified match ⇒ `ERROR` token; classified match ⇒ token
(suppressed later when its definition is skip-marked); unclassifiable
match ⇒ nothing emitted, scan advances; zero-length match ⇒ scan position
bumped one extra unit; trailing unmatched text ⇒ final `ERROR` token. -/
def scanAllAux (defs : List LexDefM) (offs : List Nat) (cre : CombRe) (t : Str) :
    Nat → Nat → Nat → List (LexToken × Bool)
  | 0, _, lastEnd =>
    if lastEnd < t.length then
      [({ type := errName, value := t.drop lastEnd, grps := [], start := lastEnd,
          stop := t.length }, false)]
    else []
  | fuel + 1, li, lastEnd =>
    match cre.cexec t li with
    | none =>
      if lastEnd < t.length then
        [({ type := errName, value := t.drop lastEnd, grps := [], start := lastEnd,
            stop := t.length }, false)]
      else []
    | some m =>
      let li2 := if m.len = 0 then m.idx + m.len + 1 else m.idx + m.len
      match firstDefined offs m.grps with
      | none => scanAllAux defs offs cre t fuel li2 lastEnd
      | some i =>
        (if lastEnd < m.idx then
          [({ type := errName, value := extract t lastEnd m.idx, grps := [],
              start := lastEnd, stop := m.idx }, false)]
         else []) ++
        ({ type := ((defs.get? i).map LexDefM.name).getD [],
           value := extract t m.idx (m.idx + m.len), grps := m.grps,
           start := m.idx, stop := m.idx + m.len },
          ((defs.get? i).map LexDefM.skip).getD false) ::
        scanAllAux defs offs cre t fuel li2 (m.idx + m.len)

/-- The instrumented scan of the whole input. -/
def scanAll (defs : List LexDefM) (cre : CombRe) (t : Str) : List (LexToken × Bool) :=
  scanAllAux defs (groupOffsets (defs.map LexDefM.src)) cre t (t.length + 2) 0 0

/-- The lexer loop exactly as the source pushes tokens: a classified match
of a skip-marked definition advances the scan without being emitted. -/
def runLexerAux (defs : List LexDefM) (offs : List Nat) (cre : CombRe) (t : Str) :
    Nat → Nat → Nat → List LexToken
  | 0, _, lastEnd =>
    if lastEnd < t.length then
      [{ type := errName, value := t.drop lastEnd, grps := [], start := lastEnd,
         stop := t.length }]
    else []
  | fuel + 1, li, lastEnd =>
    match cre.cexec t li with
    | none =>
      if lastEnd < t.length then
        [{ type := errName, value := t.drop lastEnd, grps := [], start := lastEnd,
           stop := t.length }]
      else []
    | some m =>
      let li2 := if m.len = 0 then m.idx + m.len + 1 else m.idx + m.len
      match firstDefined offs m.grps with
      | none => runLexerAux defs offs cre t fuel li2 lastEnd
      | some i =>
        (if lastEnd < m.idx then
          [{ type := errName, value := extract t lastEnd m.idx, grps := [],
             start := lastEnd, stop := m.idx }]
         else []) ++
        (if ((defs.get? i).map LexDefM.skip).getD false then
          runLexerAux defs offs cre t fuel li2 (m.idx + m.len)
         else
          { type := ((defs.get? i).map LexDefM.name).getD [],
            value := extract t m.idx (m.idx + m.len), grps := m.grps,
            start := m.idx, stop := m.idx + m.len } ::
          runLexerAux defs offs cre t fuel li2 (m.idx + m.len))

/-- The token sequence produced by `createLexer(defs)(input)`, over the
abstractly given combined alternation. -/
def runLexer (defs : List LexDefM) (cre : CombRe) (t : Str) : List LexToken :=
  runLexerAux defs (groupOffsets (defs.map LexDefM.src)) cre t (t.length + 2) 0 0

/-- Contiguous coverage: the token list tiles `[a, n)` — the first token
starts at `a`, each token's start is the previous token's stop, and the
list ends exactly at `n`. -/
def CoversFrom : Nat → List LexToken → Nat → Prop
  | a, [], n => a = n
  | a, tok :: ts, n => tok.start = a ∧ a ≤ tok.stop ∧ CoversFrom tok.stop ts n

end PikeSRE

namespace PikeSRE

/-- Reaction metadata (`{version: 1, produced_by: rule.name}`). -/
structure ScrollMeta where
  version : Nat
  producedBy : Str

/-- A document ("Scroll", types.ts): slash-delimited key, type tag,
optional metadata and a payload. -/
structure Scroll where
  key : Str
  type : Str
  meta : Option ScrollMeta
  data : JValue

/-- A compiled pattern rule (pattern.ts `CompiledPattern`): the compiled
watch glob, the optional extract/guard/veto regexes (compiled without
flags, hence stateless `test`), the output type, path template, data
template and the optional cascade target. -/
structure CRule where
  name : Str
  watch : List GlobSeg
  x : Option RePat
  g : Option RePat
  v : Option RePat
  emit : Str
  emit_path : Str
  template : JValue
  thenName : Option Str

/-- Serialization of a payload for regex testing: strings pass through,
anything else is `JSON.stringify`ed. -/
def dataToStr : JValue → Str
  | JValue.str s => s
  | other => jsonStringify other

/-- `applyPattern` from pattern.ts with the identifier stream explicit:
route on the watch glob, guard, veto, extract captures, build the
template context and substitute the output path and payload; the reaction
carries `{version := 1, produced_by := rule.name}` metadata.  Returns the
optional reaction and the advanced identifier counter. -/
def applyPatternM (r : CRule) (scroll : Scroll) (gen : Nat → Str) (k : Nat) :
    Option Scroll × Nat :=
  if matchSeg r.watch (parsePath scroll.key) = false then (none, k)
  else
    let dataStr := dataToStr scroll.data
    if (match r.g with
        | some pg => !(testFrom0 pg dataStr)
        | none => false) then (none, k)
    else if (match r.v with
        | some pv => testFrom0 pv dataStr
        | none => false) then (none, k)
    else
      let captures : List (Option Str) :=
        match r.x with
        | some px =>
          match px.exec dataStr 0 with
          | some m => some (extract dataStr m.start m.stop) :: m.grps
          | none => []
        | none => []
      let ctx : TemplateCtx :=
        { captures := some captures
          path := some (parsePath scroll.key)
          data := some (match scroll.data with
            | JValue.obj fs => JValue.obj fs
            | JValue.arr xs => JValue.arr xs
            | _ => JValue.obj [])
          input := some dataStr }
      let rp := substituteString r.emit_path ctx gen k
      let rd := substituteValue r.template ctx gen rp.2
      (some { key := rp.1, type := r.emit,
              meta := some { version := 1, producedBy := r.name }, data := rd.1 }, rd.2)

/-- The visited-set key `` `${key}:${type}` `` of `PatternEngine.apply`. -/
def tagOf (sc : Scroll) : Str := sc.key ++ Char.ofNat 58 :: sc.type

/-- Registry lookup (`this.patterns.get(name)`). -/
def findRule (rules : List CRule) (nm : Str) : Option CRule :=
  rules.find? (fun r => r.name == nm)

/-- The state of one `apply` call: the work queue, the visited tags (a
set, represented as a duplicate-free list), the reactions collected so
far, and the identifier counter. -/
structure EngState where
  queue : List Scroll
  visited : List Str
  reactions : List Scroll
  k : Nat

/-- The inner `for (const pattern of this.patterns.values())` loop of
`apply`: apply each rule to the current document in registration order,
record every reaction, and enqueue a reaction whose rule names a
registered cascade target. -/
def processRules (rules allRules : List CRule) (gen : Nat → Str) (cur : Scroll)
    (st : EngState) : EngState :=
  match rules with
  | [] => st
  | r :: rest =>
    let ar := applyPatternM r cur gen st.k
    let st2 :=
      match ar.1 with
      | none => { st with k := ar.2 }
      | some reaction =>
        { st with
          reactions := st.reactions ++ [reaction]
          queue := st.queue ++
            (if (match r.thenName with
                 | some nm => (findRule allRules nm).isSome
                 | none => false) then [reaction] else [])
          k := ar.2 }
    processRules rest allRules gen cur st2

/-- Processing of one dequeued document against all registered rules. -/
def processDoc (rules : List CRule) (gen : Nat → Str) (cur : Scroll) (st : EngState) :
    EngState :=
  processRules rules rules gen cur st

/-- The `while (queue.length > 0)` loop of `PatternEngine.apply`, indexed
by fuel: dequeue, skip documents whose `(key, type)` tag was already
visited, otherwise mark visited and process against every rule.  `none`
means the fuel ran out before the queue emptied; the loop terminates
exactly when some fuel returns `some`. -/
def runApply (rules : List CRule) (gen : Nat → Str) : Nat → EngState → Option (List Scroll)
  | 0, _ => none
  | fuel + 1, st =>
    match st.queue with
    | [] => some st.reactions
    | cur :: rest =>
      if tagOf cur ∈ st.visited then
        runApply rules gen fuel { st with queue := rest }
      else
        runApply rules gen fuel
          (processDoc rules gen cur { st with queue := rest, visited := tagOf cur :: st.visited })

/-- `PatternEngine.apply(scroll)` with the given fuel: fresh visited set,
fresh reaction list, queue seeded with the input document. -/
def engineApply (rules : List CRule) (gen : Nat → Str) (fuel : Nat) (sc : Scroll) :
    Option (List Scroll) :=
  runApply rules gen fuel { queue := [sc], visited := [], reactions := [], k := 0 }

end PikeSRE

namespace PikeSRE

/-- A command built by `g` over a global-flag regex, as used in the C5
counterexample: the closed-over `RegExp` object starts with
`lastIndex = 0`. -/
def c5regex : RegexObj := { pat := litPat [Char.ofNat 97], glob := true, li := 0 }

/-- Claim C5, counterexample: `g(/a/g, c('X'))` applied twice to `"ab"`
returns `"X"` the first time and `"ab"` the second time — the global-flag
`test` advances the closed-over `lastIndex` from 0 to 1, and no match of
`"a"` exists at or after position 1 — so the constructed command is not a
pure, deterministic function. -/
theorem C5_global_test_state_leak :
    (gRun c5regex (cCmd "X".data) "ab".data).1 = "X".data ∧
    (gRun { pat := c5regex.pat, glob := true,
            li := (gRun c5regex (cCmd "X".data) "ab".data).2 }
      (cCmd "X".data) "ab".data).1 = "ab".data ∧
    "X".data ≠ "ab".data := by
  refine ⟨by decide, ?_, by decide⟩
  decide

/-- Claim C5, amended: the commands built by `x`, `y`, `s` and `xAll`
compile a fresh copy of the pattern, so they are deterministic for every
pattern and never read or write the closed-over object's `lastIndex`; a
command built by `xFirst` is deterministic for every pattern — its
`input.match(pattern)` always reports the first match scanning from 0 —
and preserves `lastIndex` for a non-global pattern, while for a global
pattern it writes `lastIndex` but always resets it to the fixed value 0,
so its output never depends on the incoming state; the commands built by
`g`, `v` and `ifMatch` are deterministic and state-preserving provided the
pattern does not carry the global flag; `c`, `d`, `p`, `n`, `l` and `pipe`
contain no regex state at all. -/
theorem C5_determinism :
    ∀ (p : RePat) (li li' : Nat) (gl gl' : Bool) (cmd cmd2 : Cmd) (repl t : Str),
      ((gRun { pat := p, glob := false, li := li } cmd t).1 =
        (gRun { pat := p, glob := false, li := li' } cmd t).1 ∧
       (gRun { pat := p, glob := false, li := li } cmd t).2 = li) ∧
      ((vRun { pat := p, glob := false, li := li } cmd t).1 =
        (vRun { pat := p, glob := false, li := li' } cmd t).1 ∧
       (vRun { pat := p, glob := false, li := li } cmd t).2 = li) ∧
      ((ifMatchRun { pat := p, glob := false, li := li } cmd cmd2 t).1 =
        (ifMatchRun { pat := p, glob := false, li := li' } cmd cmd2 t).1 ∧
       (ifMatchRun { pat := p, glob := false, li := li } cmd cmd2 t).2 = li) ∧
      ((xRun { pat := p, glob := gl, li := li } cmd t).1 =
        (xRun { pat := p, glob := gl', li := li' } cmd t).1 ∧
       (xRun { pat := p, glob := gl, li := li } cmd t).2 = li) ∧
      ((yRun { pat := p, glob := gl, li := li } cmd t).1 =
        (yRun { pat := p, glob := gl', li := li' } cmd t).1 ∧
       (yRun { pat := p, glob := gl, li := li } cmd t).2 = li) ∧
      ((sRun { pat := p, glob := gl, li := li } repl t).1 =
        (sRun { pat := p, glob := gl', li := li' } repl t).1 ∧
       (sRun { pat := p, glob := gl, li := li } repl t).2 = li) ∧
      ((xAllRun { pat := p, glob := gl, li := li } cmd t).1 =
        (xAllRun { pat := p, glob := gl', li := li' } cmd t).1 ∧
       (xAllRun { pat := p, glob := gl, li := li } cmd t).2 = li) ∧
      ((xFirstRun { pat := p, glob := gl, li := li } cmd t).1 =
        (xFirstRun { pat := p, glob := gl', li := li' } cmd t).1 ∧
       (xFirstRun { pat := p, glob := false, li := li } cmd t).2 = li ∧
       (xFirstRun { pat := p, glob := true, li := li } cmd t).2 = 0) := by
  intro p li li' gl gl' cmd cmd2 repl t
  exact ⟨⟨rfl, rfl⟩, ⟨rfl, rfl⟩, ⟨rfl, rfl⟩, ⟨rfl, rfl⟩, ⟨rfl, rfl⟩, ⟨rfl, rfl⟩,
    ⟨rfl, rfl⟩, ⟨rfl, rfl, rfl⟩⟩

end PikeSRE

namespace PikeSRE

/-- Claim C2, evaluation at the failing input (the repository's own
example 03, "Range Selection"): the fluent chain
`sre('Hello World, how are you?').n(0, 10).s(/o/g, '0').value()` returns
`'Hell0 W0rl'` — the fluent `n` step discards everything outside the
selected range — while the corresponding command-algebra composition
`n(0, 10, s(/o/g, '0'))`, and the output documented in the example file,
is `'Hell0 W0rld, how are you?'`.  Likewise a fluent `g` step whose
pattern does not match empties the value instead of leaving it unchanged
as the algebra's `g` does. -/
theorem C2_fluent_divergence :
    sreValue "Hello World, how are you?".data
        [FStep.fn 0 (some 10), FStep.fs (litPat [Char.ofNat 111]) "0".data] =
      "Hell0 W0rl".data ∧
    nCmd 0 (some 10) (sCmd (litPat [Char.ofNat 111]) "0".data)
        "Hello World, how are you?".data =
      "Hell0 W0rld, how are you?".data ∧
    "Hell0 W0rl".data ≠ "Hell0 W0rld, how are you?".data ∧
    sreValue "abc".data [FStep.fg (litPat [Char.ofNat 120])] = [] ∧
    gCmd (litPat [Char.ofNat 120]) pCmd "abc".data = "abc".data := by
  refine ⟨by decide, by decide, by decide, by decide, by decide⟩

end PikeSRE

namespace PikeSRE

/-- Claim C4, counterexample: on `extractGlobCaptures('**/*', 'a/b')` the
only alignment puts `'a'` under the double wildcard and `'b'` under the
single wildcard, so the claim predicts `['a','b']`; the code returns
`['a','b','a']` — the failed skip-0 branch of the double wildcard pushed
`'a'` for the single wildcard and that push survives backtracking, and
the double's own run is appended after the later segment's capture. -/
theorem C4_leftover_backtracking_captures :
    extractGlobCaptures "**/*".data "a/b".data =
      some ["a".data, "b".data, "a".data] ∧
    (["a".data, "b".data, "a".data] : List Str) ≠ ["a".data, "b".data] := by
  exact ⟨by decide, by decide⟩

/-- Claim C4, amended: `extractGlobCaptures` returns `null` exactly when
the pattern does not match the path (the capture pushes never influence
the matching decision); and for patterns containing no double wildcard —
where the alignment is forced — a successful extraction returns precisely
the path segments aligned with the single wildcards, in left-to-right
segment order, with nothing left over.  In the presence of double
wildcards the returned sequence can contain leftovers of abandoned
backtracking branches and emits the double's run after later captures. -/
theorem C4_null_iff_no_match :
    (∀ pattern path : Str,
      extractGlobCaptures pattern path = none ↔ globMatch pattern path = false) ∧
    (∀ pattern path : Str, ∀ caps : List Str,
      (∀ s ∈ parseGlobSegments pattern, s ≠ GlobSeg.double) →
      extractGlobCaptures pattern path = some caps →
      caps = alignedCaptures (parseGlobSegments pattern) (parsePath path)) := by
  constructor
  · intro pattern path
    have h := (extractGo_matches
        (2 * (parseGlobSegments pattern).length + (parsePath path).length + 1)).1
      (parseGlobSegments pattern) (parsePath path) [] (Nat.le_refl _)
    simp only [extractGlobCaptures, globMatch]
    cases hm : matchSeg (parseGlobSegments pattern) (parsePath path) with
    | true => simp [h, hm]
    | false => simp [h, hm]
  · intro pattern path caps hnd hsome
    simp only [extractGlobCaptures] at hsome
    split at hsome
    · next hok =>
      cases hsome
      exact (extractGo_noDouble _ _ _ [] hnd hok).symm ▸ rfl
    · exact absurd hsome (by simp)

/-- Claim C4, witness: the specification's own example
`extractGlobCaptures('/u/*/p/*','/u/1/p/2') == ['1','2']`, with the
no-double hypothesis discharged concretely. -/
theorem C4_witness :
    extractGlobCaptures "/u/*/p/*".data "/u/1/p/2".data =
      some ["1".data, "2".data] ∧
    ["1".data, "2".data] =
      alignedCaptures (parseGlobSegments "/u/*/p/*".data) (parsePath "/u/1/p/2".data) :=
  ⟨by decide,
    C4_null_iff_no_match.2 "/u/*/p/*".data "/u/1/p/2".data ["1".data, "2".data]
      (by decide) (by decide)⟩

end PikeSRE

namespace PikeSRE

/-- Coverage invariant of the instrumented scan: starting with
`lastEnd ≤ li` and `lastEnd ≤ |t|`, the emitted tokens (errors,
skip-suppressed and regular alike) tile `[lastEnd, |t|)` contiguously. -/
theorem scanAllAux_covers (defs : List LexDefM) (offs : List Nat) (cre : CombRe) (t : Str) :
    ∀ fuel li lastEnd, lastEnd ≤ li → lastEnd ≤ t.length →
      CoversFrom lastEnd ((scanAllAux defs offs cre t fuel li lastEnd).map Prod.fst)
        t.length := by
  intro fuel
  induction fuel with
  | zero =>
    intro li lastEnd h1 h2
    simp only [scanAllAux]
    split
    · next h =>
      simp only [List.map_cons, List.map_nil, CoversFrom]
      refine ⟨?_, ?_, ?_⟩ <;> first | trivial | omega
    · next h =>
      simp only [List.map_nil, CoversFrom]
      omega
  | succ fuel ih =>
    intro li lastEnd h1 h2
    cases hex : cre.cexec t li with
    | none =>
      simp only [scanAllAux, hex]
      split
      · next h =>
        simp only [List.map_cons, List.map_nil, CoversFrom]
        refine ⟨?_, ?_, ?_⟩ <;> first | trivial | omega
      · next h =>
        simp only [List.map_nil, CoversFrom]
        omega
    | some m =>
      have hwf := cre.cwf t li m hex
      cases hfd : firstDefined offs m.grps with
      | none =>
        simp only [scanAllAux, hex, hfd]
        exact ih _ lastEnd (by split <;> omega) h2
      | some i =>
        simp only [scanAllAux, hex, hfd]
        by_cases hgap : lastEnd < m.idx
        · rw [if_pos hgap]
          simp only [List.cons_append, List.nil_append, List.map_cons, CoversFrom]
          refine ⟨?_, ?_, ?_, ?_, ih _ _ (by split <;> omega) (by omega)⟩ <;>
            first | trivial | omega
        · rw [if_neg hgap]
          simp only [List.nil_append, List.map_cons, CoversFrom]
          refine ⟨?_, ?_, ih _ _ (by split <;> omega) (by omega)⟩ <;>
            first | trivial | omega

/-- The lexer's conditional pushes are the skip-filter of the
instrumented scan. -/
theorem runLexerAux_eq_filter (defs : List LexDefM) (offs : List Nat) (cre : CombRe)
    (t : Str) :
    ∀ fuel li lastEnd,
      runLexerAux defs offs cre t fuel li lastEnd =
        (scanAllAux defs offs cre t fuel li lastEnd).filterMap
          (fun pr => if pr.2 then none else some pr.1) := by
  intro fuel
  induction fuel with
  | zero =>
    intro li lastEnd
    simp only [runLexerAux, scanAllAux]
    split <;> simp
  | succ fuel ih =>
    intro li lastEnd
    cases hex : cre.cexec t li with
    | none =>
      simp only [runLexerAux, scanAllAux, hex]
      split <;> simp
    | some m =>
      cases hfd : firstDefined offs m.grps with
      | none =>
        simp only [runLexerAux, scanAllAux, hex, hfd]
        exact ih _ _
      | some i =>
        simp only [runLexerAux, scanAllAux, hex, hfd, List.filterMap_append,
          List.filterMap_cons]
        by_cases hskip : ((defs.get? i).map LexDefM.skip).getD false
        · rw [if_pos hskip, if_pos hskip, ih]
          split <;> simp
        · rw [if_neg hskip, if_neg hskip, ih]
          split <;> simp

/-- The instrumented scan's token components (everything except the skip
marks) depend on the definitions only through their names, for a fixed
offset table. -/
theorem scanAllAux_fst_name_determined (defs defs' : List LexDefM) (offs : List Nat)
    (cre : CombRe) (t : Str)
    (hn : defs.map LexDefM.name = defs'.map LexDefM.name) :
    ∀ fuel li lastEnd,
      (scanAllAux defs offs cre t fuel li lastEnd).map Prod.fst =
        (scanAllAux defs' offs cre t fuel li lastEnd).map Prod.fst := by
  have hname : ∀ i, ((defs.get? i).map LexDefM.name).getD [] =
      ((defs'.get? i).map LexDefM.name).getD [] := by
    intro i
    have h1 : (defs.map LexDefM.name).get? i = (defs'.map LexDefM.name).get? i := by
      rw [hn]
    rw [List.get?_map, List.get?_map] at h1
    cases hd : defs.get? i with
    | none =>
      cases hd' : defs'.get? i with
      | none => rfl
      | some d' => rw [hd, hd'] at h1; simp at h1
    | some d =>
      cases hd' : defs'.get? i with
      | none => rw [hd, hd'] at h1; simp at h1
      | some d' =>
        rw [hd, hd'] at h1
        simp only [Option.map_some'] at h1
        simp only [Option.map_some', Option.getD_some]
        exact Option.some.inj h1
  intro fuel
  induction fuel with
  | zero =>
    intro li lastEnd
    simp only [scanAllAux]
  | succ fuel ih =>
    intro li lastEnd
    cases hex : cre.cexec t li with
    | none =>
      simp only [scanAllAux, hex]
    | some m =>
      cases hfd : firstDefined offs m.grps with
      | none =>
        simp only [scanAllAux, hex, hfd]
        exact ih _ _
      | some i =>
        simp only [scanAllAux, hex, hfd]
        by_cases hgap : lastEnd < m.idx
        · rw [if_pos hgap]
          simp only [List.cons_append, List.nil_append, List.map_cons, ih, hname i]
        · rw [if_neg hgap]
          simp only [List.nil_append, List.map_cons, ih, hname i]
end PikeSRE

namespace PikeSRE

/-- Claim C6: for every token-definition list and input (over any
well-formed combined alternation), the instrumented token sequence —
ERROR tokens and skip-consumed spans included — covers `[0, len(input))`
contiguously (each token starts where the previous one ended, starting at
0 and ending at the input length); the emitted sequence of `createLexer`
is exactly that sequence with the skip-marked tokens suppressed; and
changing only the skip flags leaves the underlying token sequence (and
hence gap/ERROR detection) unchanged. -/
theorem C6_lexer_coverage :
    ∀ (cre : CombRe) (defs : List LexDefM) (t : Str),
      CoversFrom 0 ((scanAll defs cre t).map Prod.fst) t.length ∧
      runLexer defs cre t =
        (scanAll defs cre t).filterMap (fun pr => if pr.2 then none else some pr.1) ∧
      ∀ defs' : List LexDefM,
        defs.map LexDefM.name = defs'.map LexDefM.name →
        defs.map LexDefM.src = defs'.map LexDefM.src →
        (scanAll defs' cre t).map Prod.fst = (scanAll defs cre t).map Prod.fst := by
  intro cre defs t
  refine ⟨?_, ?_, ?_⟩
  · exact scanAllAux_covers defs _ cre t _ 0 0 (Nat.le_refl 0) (Nat.zero_le _)
  · exact runLexerAux_eq_filter defs _ cre t _ 0 0
  · intro defs' hn hs
    have hoffs : groupOffsets (defs'.map LexDefM.src) = groupOffsets (defs.map LexDefM.src) := by
      rw [hs]
    simp only [scanAll, hoffs]
    exact scanAllAux_fst_name_determined defs' defs _ cre t hn.symm _ 0 0

/-- Concrete combined alternation for the C6 witness: matches the single
letter `a` with one wrapper group (group array `[match, group1]`). -/
def c6comb : CombRe where
  cexec := fun t i => (litFindAux [Char.ofNat 97] t (t.length + 2) i).map
    (fun s => { idx := s, len := 1, grps := [some [Char.ofNat 97], some [Char.ofNat 97]] })
  cwf := by
    intro t i m h
    simp only [Option.map_eq_some'] at h
    obtain ⟨s, hs, rfl⟩ := h
    have := litFindAux_wf [Char.ofNat 97] t (t.length + 2) i s hs
    simp only [List.length_cons, List.length_nil] at this
    simp only
    omega

/-- Lexer definitions for the C6 witness. -/
def c6defs : List LexDefM := [{ name := "A".data, src := "a".data, skip := false }]

/-- The same definitions with the skip flag flipped. -/
def c6defsSkip : List LexDefM := [{ name := "A".data, src := "a".data, skip := true }]

/-- Claim C6, witness: coverage, the filter equation and skip-invariance
instantiated on a concrete lexer over the input `"ab"`. -/
theorem C6_lexer_coverage_witness :
    CoversFrom 0 ((scanAll c6defs c6comb "ab".data).map Prod.fst) ("ab".data).length ∧
    runLexer c6defs c6comb "ab".data =
      (scanAll c6defs c6comb "ab".data).filterMap
        (fun pr => if pr.2 then none else some pr.1) ∧
    (scanAll c6defsSkip c6comb "ab".data).map Prod.fst =
      (scanAll c6defs c6comb "ab".data).map Prod.fst :=
  ⟨(C6_lexer_coverage c6comb c6defs "ab".data).1,
   (C6_lexer_coverage c6comb c6defs "ab".data).2.1,
   (C6_lexer_coverage c6comb c6defs "ab".data).2.2 c6defsSkip (by decide) (by decide)⟩

end PikeSRE

namespace PikeSRE

/-- Syntax of host regex sources as far as capture-group counting is
concerned: literals (escaped on serialization when special), sequencing,
alternation, plain capturing groups `(...)`, non-capturing groups
`(?:...)`, named capturing groups `(?<name>...)`, character classes
(members serialized escaped) and repetition. -/
inductive RegexAst where
  | lit (c : Char)
  | seq (a b : RegexAst)
  | alt (a b : RegexAst)
  | grp (e : RegexAst)
  | ncg (e : RegexAst)
  | namedGrp (nm : Str) (e : RegexAst)
  | cls (cs : List Char)
  | star (e : RegexAst)

/-- Characters escaped by the serialization. -/
def regexSpecials : List Char :=
  [Char.ofNat 92, Char.ofNat 40, Char.ofNat 41, Char.ofNat 91, Char.ofNat 93,
   Char.ofNat 124, Char.ofNat 42, Char.ofNat 43, Char.ofNat 63, Char.ofNat 46,
   Char.ofNat 94, Char.ofNat 36, Char.ofNat 47, Char.ofNat 123, Char.ofNat 125]

/-- Escape a literal character for a regex source. -/
def escChar (c : Char) : Str :=
  if c ∈ regexSpecials then [Char.ofNat 92, c] else [c]

/-- Source text of a regex syntax tree. -/
def serializeAst : RegexAst → Str
  | RegexAst.lit c => escChar c
  | RegexAst.seq a b => serializeAst a ++ serializeAst b
  | RegexAst.alt a b => serializeAst a ++ Char.ofNat 124 :: serializeAst b
  | RegexAst.grp e => Char.ofNat 40 :: serializeAst e ++ [Char.ofNat 41]
  | RegexAst.ncg e =>
    Char.ofNat 40 :: Char.ofNat 63 :: Char.ofNat 58 :: serializeAst e ++ [Char.ofNat 41]
  | RegexAst.namedGrp nm e =>
    Char.ofNat 40 :: Char.ofNat 63 :: Char.ofNat 60 :: nm ++
      Char.ofNat 62 :: serializeAst e ++ [Char.ofNat 41]
  | RegexAst.cls cs => Char.ofNat 91 :: (cs.map escChar).flatten ++ [Char.ofNat 93]
  | RegexAst.star e => serializeAst e ++ [Char.ofNat 42]

/-- The number of capturing groups the host sees in a pattern: plain and
named groups capture, non-capturing groups do not. -/
def astCaptureCount : RegexAst → Nat
  | RegexAst.lit _ => 0
  | RegexAst.seq a b => astCaptureCount a + astCaptureCount b
  | RegexAst.alt a b => astCaptureCount a + astCaptureCount b
  | RegexAst.grp e => 1 + astCaptureCount e
  | RegexAst.ncg e => astCaptureCount e
  | RegexAst.namedGrp _ e => 1 + astCaptureCount e
  | RegexAst.cls _ => 0
  | RegexAst.star e => astCaptureCount e

/-- A pattern whose capturing groups are all plain `(...)` groups. -/
def plainGroups : RegexAst → Bool
  | RegexAst.lit _ => true
  | RegexAst.seq a b => plainGroups a && plainGroups b
  | RegexAst.alt a b => plainGroups a && plainGroups b
  | RegexAst.grp e => plainGroups e
  | RegexAst.ncg e => plainGroups e
  | RegexAst.namedGrp _ _ => false
  | RegexAst.cls _ => true
  | RegexAst.star e => plainGroups e

/-- Serializations are never empty. -/
theorem serializeAst_ne_nil : ∀ e : RegexAst, serializeAst e ≠ [] := by
  intro e
  induction e with
  | lit c =>
    simp only [serializeAst, escChar]
    split <;> simp
  | seq a b iha ihb =>
    simp only [serializeAst]
    intro h
    exact iha (List.append_eq_nil.mp h).1
  | alt a b iha ihb => simp [serializeAst]
  | grp e ih => simp [serializeAst]
  | ncg e ih => simp [serializeAst]
  | namedGrp nm e ih => simp [serializeAst]
  | cls cs => simp [serializeAst]
  | star e ih => simp [serializeAst]

/-- Head of a concatenation whose first part is non-empty. -/
theorem head?_append_left {l l' : Str} (h : l ≠ []) : (l ++ l').head? = l.head? := by
  cases l with
  | nil => exact absurd rfl h
  | cons c t => rfl

/-- No serialization starts with `?` (specials, `?` among them, are
escaped). -/
theorem serializeAst_head_ne_q : ∀ e : RegexAst,
    (serializeAst e).head? ≠ some (Char.ofNat 63) := by
  intro e
  induction e with
  | lit c =>
    by_cases hc : c ∈ regexSpecials
    · simp only [serializeAst, escChar, if_pos hc, List.head?_cons]
      decide
    · simp only [serializeAst, escChar, if_neg hc, List.head?_cons]
      intro h
      have : c = Char.ofNat 63 := Option.some.inj h
      subst this
      exact hc (by decide)
  | seq a b iha ihb =>
    rw [serializeAst, head?_append_left (serializeAst_ne_nil a)]
    exact iha
  | alt a b iha ihb =>
    rw [serializeAst, head?_append_left (serializeAst_ne_nil a)]
    exact iha
  | star e ih =>
    rw [serializeAst, head?_append_left (serializeAst_ne_nil e)]
    exact ih
  | grp e ih =>
    intro h
    exact absurd (Option.some.inj h) (by decide)
  | ncg e ih =>
    intro h
    exact absurd (Option.some.inj h) (by decide)
  | namedGrp nm e ih =>
    intro h
    exact absurd (Option.some.inj h) (by decide)
  | cls cs =>
    intro h
    exact absurd (Option.some.inj h) (by decide)

end PikeSRE

namespace PikeSRE

/-- Unfolding: an escape skips the escaped character. -/
theorem countGroups_esc (c : Char) (t : Str) :
    countGroups (Char.ofNat 92 :: c :: t) = countGroups t := by
  simp [countGroups]

/-- Unfolding: an unescaped `(` counts unless followed by `?`. -/
theorem countGroups_open (t : Str) :
    countGroups (Char.ofNat 40 :: t) =
      (if t.head? = some (Char.ofNat 63) then 0 else 1) + countGroups t := by
  rw [countGroups.eq_def]
  simp only
  rw [if_neg (by decide)]
  simp

/-- Unfolding: any other character is skipped. -/
theorem countGroups_other (c : Char) (t : Str) (h92 : c ≠ Char.ofNat 92)
    (h40 : c ≠ Char.ofNat 40) : countGroups (c :: t) = countGroups t := by
  rw [countGroups.eq_def]
  simp only
  rw [if_neg h92, if_neg h40]

/-- Escaped class members contribute no groups to the scan. -/
theorem countGroups_class_members : ∀ (cs : List Char) (rest : Str),
    countGroups ((cs.map escChar).flatten ++ rest) = countGroups rest := by
  intro cs
  induction cs with
  | nil => intro rest; simp
  | cons c cs ih =>
    intro rest
    simp only [List.map_cons, List.flatten_cons, List.append_assoc]
    by_cases hc : c ∈ regexSpecials
    · rw [escChar, if_pos hc]
      show countGroups (Char.ofNat 92 :: c :: ((cs.map escChar).flatten ++ rest)) = _
      rw [countGroups_esc, ih]
    · rw [escChar, if_neg hc]
      show countGroups (c :: ((cs.map escChar).flatten ++ rest)) = _
      rw [countGroups_other c _ (fun h => hc (by rw [h]; decide))
        (fun h => hc (by rw [h]; decide)), ih]

/-- Head of a cons differs from `?` when its head character does. -/
theorem head?_cons_ne_q (c : Char) (hc : c ≠ Char.ofNat 63) (t : Str) :
    (c :: t).head? ≠ some (Char.ofNat 63) :=
  fun h => hc (Option.some.inj h)

/-- The character-based scan of `countGroups` agrees with the true
capture-group count on any serialized pattern from the named-group-free
fragment, in any right context not beginning with `?`. -/
theorem countGroups_cont : ∀ (e : RegexAst) (rest : Str), plainGroups e = true →
    rest.head? ≠ some (Char.ofNat 63) →
    countGroups (serializeAst e ++ rest) = astCaptureCount e + countGroups rest := by
  intro e
  induction e with
  | lit c =>
    intro rest hp hq
    by_cases hc : c ∈ regexSpecials
    · rw [serializeAst, escChar, if_pos hc]
      show countGroups (Char.ofNat 92 :: c :: rest) = _
      rw [countGroups_esc]
      simp [astCaptureCount]
    · rw [serializeAst, escChar, if_neg hc]
      show countGroups (c :: rest) = _
      rw [countGroups_other c _ (fun h => hc (by rw [h]; decide))
        (fun h => hc (by rw [h]; decide))]
      simp [astCaptureCount]
  | seq a b iha ihb =>
    intro rest hp hq
    simp only [plainGroups, Bool.and_eq_true] at hp
    rw [serializeAst, List.append_assoc, iha _ hp.1 ?_, ihb _ hp.2 hq, astCaptureCount]
    · omega
    · rw [head?_append_left (serializeAst_ne_nil b)]
      exact serializeAst_head_ne_q b
  | alt a b iha ihb =>
    intro rest hp hq
    simp only [plainGroups, Bool.and_eq_true] at hp
    rw [serializeAst]
    simp only [List.append_assoc, List.cons_append, List.nil_append]
    rw [iha _ hp.1 (head?_cons_ne_q _ (by decide) _)]
    rw [countGroups_other _ _ (by decide) (by decide), ihb _ hp.2 hq, astCaptureCount]
    omega
  | grp e ih =>
    intro rest hp hq
    simp only [plainGroups] at hp
    rw [serializeAst]
    simp only [List.append_assoc, List.cons_append, List.singleton_append,
      List.nil_append]
    rw [countGroups_open]
    rw [if_neg (by
      rw [head?_append_left (serializeAst_ne_nil e)]
      exact serializeAst_head_ne_q e)]
    rw [ih _ hp (head?_cons_ne_q _ (by decide) _)]
    rw [countGroups_other _ _ (by decide) (by decide), astCaptureCount]
    omega
  | ncg e ih =>
    intro rest hp hq
    simp only [plainGroups] at hp
    rw [serializeAst]
    simp only [List.append_assoc, List.cons_append, List.singleton_append,
      List.nil_append]
    rw [countGroups_open]
    have h63 : (Char.ofNat 63 :: Char.ofNat 58 ::
        (serializeAst e ++ Char.ofNat 41 :: rest)).head? = some (Char.ofNat 63) := rfl
    rw [if_pos h63]
    rw [countGroups_other _ _ (by decide) (by decide)]
    rw [countGroups_other _ _ (by decide) (by decide)]
    rw [ih _ hp (head?_cons_ne_q _ (by decide) _)]
    rw [countGroups_other _ _ (by decide) (by decide), astCaptureCount]
    omega
  | namedGrp nm e ih =>
    intro rest hp hq
    simp [plainGroups] at hp
  | cls cs =>
    intro rest hp hq
    rw [serializeAst]
    simp only [List.append_assoc, List.cons_append, List.singleton_append,
      List.nil_append]
    rw [countGroups_other _ _ (by decide) (by decide), countGroups_class_members]
    rw [countGroups_other _ _ (by decide) (by decide), astCaptureCount]
    omega
  | star e ih =>
    intro rest hp hq
    simp only [plainGroups] at hp
    rw [serializeAst, List.append_assoc, List.singleton_append]
    rw [ih _ hp (head?_cons_ne_q _ (by decide) _)]
    rw [countGroups_other _ _ (by decide) (by decide), astCaptureCount]

end PikeSRE

namespace PikeSRE

/-- `countGroups` computes the true capture-group count of any serialized
pattern from the named-group-free fragment. -/
theorem countGroups_serialize (e : RegexAst) (hp : plainGroups e = true) :
    countGroups (serializeAst e) = astCaptureCount e := by
  have h := countGroups_cont e [] hp (by simp)
  simpa using h

/-- Closed form of the offset accumulation. -/
theorem groupOffsetsAux_formula : ∀ (srcs : List Str) (off : Nat),
    groupOffsetsAux off srcs =
      (List.range srcs.length).map
        (fun i => off + ((srcs.take i).map (fun s => 1 + countGroups s)).sum) := by
  intro srcs
  induction srcs with
  | nil => intro off; rfl
  | cons s rest ih =>
    intro off
    rw [groupOffsetsAux, ih, List.length_cons, List.range_succ_eq_map]
    simp only [List.map_cons, List.map_map]
    congr 1
    all_goals simp
    all_goals intro a ha; omega

/-- The wrapper offsets the specification prescribes: sub-pattern `i`
occupies index `1 +` the total slot count (`1 + true group count`) of
all earlier sub-patterns. -/
def specGroupOffsets (asts : List RegexAst) : List Nat :=
  (List.range asts.length).map
    (fun i => 1 + ((asts.take i).map (fun e => 1 + astCaptureCount e)).sum)

end PikeSRE

namespace PikeSRE

/-- The named-group pattern `(?<a>b)` of the C7 counterexample. -/
def c7named : RegexAst := RegexAst.namedGrp "a".data (RegexAst.lit (Char.ofNat 98))

/-- A plain second sub-pattern `c`. -/
def c7second : RegexAst := RegexAst.lit (Char.ofNat 99)

/-- Claim C7, counterexample: for the definition list
`[(?<a>b), c]` the host sees one capturing group inside the first
sub-pattern (a named group captures), so the second wrapper occupies
absolute index 3; `createLexer`'s `countGroups` counts 0 for `(?<a>b)`
(it treats every `(?`-prefixed group as non-capturing) and assigns the
second wrapper index 2 — the claimed formula over all host capture-group
forms fails. -/
theorem C7_named_group_miscount :
    serializeAst c7named = "(?<a>b)".data ∧
    countGroups (serializeAst c7named) = 0 ∧
    astCaptureCount c7named = 1 ∧
    groupOffsets [serializeAst c7named, serializeAst c7second] = [1, 2] ∧
    specGroupOffsets [c7named, c7second] = [1, 3] ∧
    groupOffsets [serializeAst c7named, serializeAst c7second] ≠
      specGroupOffsets [c7named, c7second] := by
  refine ⟨by decide, by decide, by decide, by decide, by decide, by decide⟩

/-- Claim C7, amended: `createLexer` assigns sub-pattern `i` the wrapper
index `1 + Σ_{j<i} (1 + countGroups(source_j))`, where `countGroups`
counts the unescaped `(` not followed by `?`; this agrees with the true
host capture-group count — and hence with the claimed formula — for
sub-patterns whose capturing groups are all plain `(...)` groups (no
named groups).  Classification picks the first definition, in order,
whose wrapper-group value is defined in the combined match. -/
theorem C7_offset_formula :
    (∀ srcs : List Str,
      groupOffsets srcs =
        (List.range srcs.length).map
          (fun i => 1 + ((srcs.take i).map (fun s => 1 + countGroups s)).sum)) ∧
    (∀ e : RegexAst, plainGroups e = true →
      countGroups (serializeAst e) = astCaptureCount e) ∧
    (∀ asts : List RegexAst, (∀ e ∈ asts, plainGroups e = true) →
      groupOffsets (asts.map serializeAst) = specGroupOffsets asts) := by
  refine ⟨?_, ?_, ?_⟩
  · intro srcs
    exact groupOffsetsAux_formula srcs 1
  · intro e hp
    exact countGroups_serialize e hp
  · intro asts hall
    rw [groupOffsets, groupOffsetsAux_formula, specGroupOffsets, List.length_map]
    apply List.map_congr_left
    intro i _
    congr 1
    rw [← List.map_take, List.map_map]
    apply congrArg
    apply List.map_congr_left
    intro e he
    simp only [Function.comp_apply]
    rw [countGroups_serialize e (hall e (List.mem_of_mem_take he))]

/-- Claim C7, witness: the amended formula applied to the concrete plain
definition list `[(b), c]` — two slots for the first sub-pattern (wrapper
plus its one plain group), so the second wrapper occupies index 3. -/
theorem C7_offset_formula_witness :
    groupOffsets [serializeAst (RegexAst.grp (RegexAst.lit (Char.ofNat 98))),
        serializeAst c7second] =
      specGroupOffsets [RegexAst.grp (RegexAst.lit (Char.ofNat 98)), c7second] ∧
    groupOffsets [serializeAst (RegexAst.grp (RegexAst.lit (Char.ofNat 98))),
        serializeAst c7second] = [1, 3] :=
  ⟨C7_offset_formula.2.2 [RegexAst.grp (RegexAst.lit (Char.ofNat 98)), c7second]
      (by decide),
   by decide⟩

end PikeSRE

namespace PikeSRE

/-- Claim C1, counterexample: with the injectable identifier stream
`natDigits` (which yields a distinct value at every invocation:
"0", "1", …), substituting `"${uuid} ${uuid}"` yields `"0 0"` and
advances the invocation counter by exactly 1 — `generateId()` is
evaluated once per `substituteString` call, before the replacement, and
both occurrences receive that same single identifier.  Under the claim
(one invocation per occurrence, distinct values possible) the result
would have been `("0 1", counter 2)`. -/
theorem C1_uuid_single_invocation :
    substituteString "$\x7buuid\x7d $\x7buuid\x7d".data
        { captures := none, path := none, data := none, input := none } natDigits 0 =
      ("0 0".data, 1) ∧
    ("0 0".data, 1) ≠ (("0 1".data : Str), (2 : Nat)) := by
  exact ⟨by decide, by decide⟩

/-- Claim C1, amended: for every template, context, identifier stream and
counter, `substituteString` invokes the generator exactly once — the
counter advances by exactly one — and the result equals the substitution
in which that one identifier `gen k` stands for every `${uuid}`
occurrence; distinct occurrences therefore always receive equal values
within one call. -/
theorem C1_uuid_once_per_call :
    ∀ (template : Str) (ctx : TemplateCtx) (gen : Nat → Str) (k : Nat),
      substituteString template ctx gen k =
        (substituteStringOneId template ctx (gen k), k + 1) := by
  intro template ctx gen k
  rfl

/-- Claim C10: the passes of `substituteString` run in the fixed order
captures, path, `${uuid}`, `${input}`, `${data.*}`, each rescanning the
previous output: a capture slot holding the literal text `"${input}"`
expands (via the later input pass) to the context's input `"X"`, while an
input value holding the literal text `"${1}"` is not re-expanded by the
earlier captures pass and survives verbatim. -/
theorem C10_pass_order :
    substituteString "$\x7b1\x7d".data
        { captures := some [some [], some "$\x7binput\x7d".data], path := none,
          data := none, input := some "X".data } (fun _ => []) 0 = ("X".data, 1) ∧
    substituteString "$\x7binput\x7d".data
        { captures := some [some [], some "A".data], path := none, data := none,
          input := some "$\x7b1\x7d".data } (fun _ => []) 0 =
      ("$\x7b1\x7d".data, 1) := by
  exact ⟨by decide, by decide⟩

end PikeSRE

namespace PikeSRE

/-- An occurrence of `pat` as a contiguous sublist of `t`. -/
def Occurs (pat t : Str) : Prop := ∃ a b, t = a ++ pat ++ b

/-- Replacing in the empty string yields the empty string. -/
theorem replaceAllAux_nil (fuel : Nat) (pat rep : Str) :
    replaceAllAux fuel [] pat rep = [] := by
  cases fuel <;> rfl

/-- A string without occurrences of the pattern is left unchanged. -/
theorem replaceAllAux_eq_self (pat rep : Str) :
    ∀ fuel t, ¬ Occurs pat t → replaceAllAux fuel t pat rep = t := by
  intro fuel
  induction fuel with
  | zero => intro t _; rfl
  | succ fuel ih =>
    intro t hno
    cases t with
    | nil => rfl
    | cons c rest =>
      simp only [replaceAllAux]
      split
      · next hcond =>
        simp only [Bool.and_eq_true, Bool.not_eq_true'] at hcond
        exact absurd ⟨[], (c :: rest).drop pat.length,
          by rw [List.nil_append,
            List.prefix_iff_eq_append.mp (List.isPrefixOf_iff_prefix.mp hcond.1)]⟩ hno
      · rw [ih rest]
        intro ⟨a, b, hab⟩
        exact hno ⟨c :: a, b, by rw [hab]; rfl⟩

/-- A string without occurrences of the pattern is left unchanged. -/
theorem replaceAll_eq_self (t pat rep : Str) (hno : ¬ Occurs pat t) :
    replaceAll t pat rep = t :=
  replaceAllAux_eq_self pat rep t.length t hno

/-- The pattern's characters occur in any string it occurs in. -/
theorem mem_of_occurs {pat t : Str} (h : Occurs pat t) {c : Char} (hc : c ∈ pat) :
    c ∈ t := by
  obtain ⟨a, b, rfl⟩ := h
  simp [hc]

/-- A dollar-free string contains no occurrence of a pattern that starts
with a dollar. -/
theorem not_occurs_of_noDollar {pat t : Str} (hpat : pat.head? = some (Char.ofNat 36))
    (ht : ∀ c ∈ t, c ≠ Char.ofNat 36) : ¬ Occurs pat t := by
  intro hocc
  cases pat with
  | nil => simp at hpat
  | cons p ps =>
    have hp : p = Char.ofNat 36 := Option.some.inj hpat
    exact ht (Char.ofNat 36) (mem_of_occurs hocc (hp ▸ List.mem_cons_self p ps))
      rfl

/-- Replacing the whole string by itself yields the replacement. -/
theorem replaceAll_self (pat rep : Str) (h : pat ≠ []) :
    replaceAll pat pat rep = rep := by
  cases pat with
  | nil => exact absurd rfl h
  | cons c t =>
    show replaceAllAux (c :: t).length (c :: t) (c :: t) rep = rep
    rw [List.length_cons, replaceAllAux]
    rw [if_pos]
    · rw [List.drop_length, replaceAllAux_nil, List.append_nil]
    · simp [List.isPrefixOf_iff_prefix]

/-- A dollar-free replacement string is expanded verbatim. -/
theorem expandRepl_noDollar (mt : Str) : ∀ rep : Str,
    (∀ c ∈ rep, c ≠ Char.ofNat 36) → expandRepl mt [] rep = rep := by
  intro rep
  induction rep with
  | nil => intro _; rfl
  | cons c rest ih =>
    intro hnd
    rw [expandRepl.eq_def]
    simp only
    rw [if_neg (hnd c (List.mem_cons_self c rest))]
    rw [ih (fun x hx => hnd x (List.mem_cons_of_mem c hx))]

end PikeSRE

namespace PikeSRE

/-- Digit characters have code points in `[48, 57]`. -/
theorem digitChar_toNat {d : Nat} (hd : d < 10) : (digitChar d).toNat = 48 + d := by
  interval_cases d <;> decide

/-- Every character of the digit accumulation is a decimal digit. -/
theorem natDigitsAux_digits : ∀ fuel n c, c ∈ natDigitsAux fuel n →
    48 ≤ c.toNat ∧ c.toNat ≤ 57 := by
  intro fuel
  induction fuel with
  | zero => intro n c hc; simp [natDigitsAux] at hc
  | succ fuel ih =>
    intro n c hc
    rw [natDigitsAux] at hc
    split at hc
    · simp at hc
    · rw [List.mem_append] at hc
      cases hc with
      | inl h => exact ih _ c h
      | inr h =>
        simp only [List.mem_singleton] at h
        subst h
        have : n % 10 < 10 := Nat.mod_lt n (by omega)
        rw [digitChar_toNat this]
        omega

/-- Every character of a decimal representation is a decimal digit. -/
theorem natDigits_digits (n : Nat) (c : Char) (hc : c ∈ natDigits n) :
    48 ≤ c.toNat ∧ c.toNat ≤ 57 := by
  rw [natDigits] at hc
  split at hc
  · simp only [List.mem_singleton] at hc
    subst hc
    rw [digitChar_toNat (by omega)]
    omega
  · exact natDigitsAux_digits n n c hc

/-- Decimal representations are never empty. -/
theorem natDigits_ne_nil (n : Nat) : natDigits n ≠ [] := by
  rw [natDigits]
  split
  · simp
  · next h =>
    obtain ⟨m, rfl⟩ : ∃ m, n = m + 1 := ⟨n - 1, by omega⟩
    rw [natDigitsAux, if_neg h]
    simp

/-- Value of a digit string, most significant first. -/
def valOfDigits (s : Str) : Nat := s.foldl (fun a c => a * 10 + (c.toNat - 48)) 0

/-- Reading back the accumulated digits recovers the number. -/
theorem natDigitsAux_val : ∀ fuel n, n ≤ fuel → ∀ acc,
    (natDigitsAux fuel n).foldl (fun a c => a * 10 + (c.toNat - 48)) acc =
      acc * 10 ^ (natDigitsAux fuel n).length + n := by
  intro fuel
  induction fuel with
  | zero =>
    intro n hn acc
    interval_cases n
    simp [natDigitsAux]
  | succ fuel ih =>
    intro n hn acc
    by_cases h0 : n = 0
    · subst h0
      simp [natDigitsAux]
    · have hstep : natDigitsAux (fuel + 1) n =
          natDigitsAux fuel (n / 10) ++ [digitChar (n % 10)] := by
        rw [natDigitsAux, if_neg h0]
      rw [hstep, List.foldl_append, ih (n / 10) (by omega) acc]
      simp only [List.foldl_cons, List.foldl_nil, List.length_append,
        List.length_singleton]
      rw [digitChar_toNat (Nat.mod_lt n (by omega)), pow_succ, ← Nat.mul_assoc]
      generalize acc * 10 ^ (natDigitsAux fuel (n / 10)).length = A
      omega

/-- Reading back a decimal representation recovers the number. -/
theorem natDigits_val (n : Nat) : valOfDigits (natDigits n) = n := by
  rw [natDigits]
  split
  · next h => subst h; decide
  · have := natDigitsAux_val n n (Nat.le_refl n) 0
    simpa [valOfDigits] using this

/-- Decimal representations are injective. -/
theorem natDigits_inj {m n : Nat} (h : natDigits m = natDigits n) : m = n := by
  have hm := natDigits_val m
  rw [h, natDigits_val] at hm
  omega

end PikeSRE

namespace PikeSRE

/-- A digit run followed by a closing brace determines itself: if
`d1 ++ '}' :: b = d2 ++ ['}']` with both runs digit-only, the runs agree
and nothing follows. -/
theorem digits_brace_eq : ∀ (d1 d2 b : Str),
    (∀ c ∈ d1, 48 ≤ c.toNat ∧ c.toNat ≤ 57) →
    (∀ c ∈ d2, 48 ≤ c.toNat ∧ c.toNat ≤ 57) →
    d1 ++ Char.ofNat 125 :: b = d2 ++ [Char.ofNat 125] → d1 = d2 ∧ b = [] := by
  intro d1
  induction d1 with
  | nil =>
    intro d2 b h1 h2 heq
    cases d2 with
    | nil =>
      simp only [List.nil_append] at heq
      exact ⟨rfl, (List.cons.inj heq).2⟩
    | cons c2 d2' =>
      simp only [List.nil_append, List.cons_append] at heq
      have hc := (List.cons.inj heq).1
      have := h2 c2 (List.mem_cons_self c2 d2')
      rw [← hc] at this
      have h125 : (Char.ofNat 125).toNat = 125 := by decide
      omega
  | cons c1 d1' ih =>
    intro d2 b h1 h2 heq
    cases d2 with
    | nil =>
      simp only [List.cons_append, List.nil_append] at heq
      have hc := (List.cons.inj heq).1
      have := h1 c1 (List.mem_cons_self c1 d1')
      rw [hc] at this
      have h125 : (Char.ofNat 125).toNat = 125 := by decide
      omega
    | cons c2 d2' =>
      simp only [List.cons_append] at heq
      obtain ⟨hc, htail⟩ := List.cons.inj heq
      obtain ⟨hd, hb⟩ := ih d2' b
        (fun c hcm => h1 c (List.mem_cons_of_mem c1 hcm))
        (fun c hcm => h2 c (List.mem_cons_of_mem c2 hcm)) htail
      exact ⟨by rw [hc, hd], hb⟩

/-- In `'$' :: '{' :: ds ++ ['}']` with `ds` digit-only, the only dollar
sits at position 0: any decomposition around a dollar-headed pattern has
an empty prefix. -/
theorem dollar_at_zero (ds : Str) (hds : ∀ c ∈ ds, 48 ≤ c.toNat ∧ c.toNat ≤ 57) :
    ∀ (a ps b : Str),
      Char.ofNat 36 :: Char.ofNat 123 :: (ds ++ [Char.ofNat 125]) =
        a ++ (Char.ofNat 36 :: ps) ++ b → a = [] := by
  intro a ps b heq
  cases a with
  | nil => rfl
  | cons c a' =>
    simp only [List.cons_append] at heq
    obtain ⟨hc, htail⟩ := List.cons.inj heq
    have hmem : Char.ofNat 36 ∈ Char.ofNat 123 :: (ds ++ [Char.ofNat 125]) := by
      rw [htail]
      simp
    simp only [List.mem_cons, List.mem_append, List.mem_singleton] at hmem
    rcases hmem with h | h | h
    · exact absurd h (by decide)
    · have := hds _ h
      have h36 : (Char.ofNat 36).toNat = 36 := by decide
      omega
    · exact absurd h (by decide)

/-- `${i}` does not occur inside `${N}` when `i ≠ N`. -/
theorem not_occurs_phNum_phNum {i N : Nat} (hne : i ≠ N) :
    ¬ Occurs (phNum i) (phNum N) := by
  rintro ⟨a, b, heq⟩
  simp only [phNum] at heq
  have ha : a = [] := dollar_at_zero (natDigits N) (natDigits_digits N) a _ b heq
  subst ha
  simp only [List.nil_append, List.cons_append] at heq
  obtain ⟨-, heq2⟩ := List.cons.inj heq
  obtain ⟨-, heq3⟩ := List.cons.inj heq2
  rw [List.append_assoc, List.singleton_append] at heq3
  obtain ⟨hd, -⟩ := digits_brace_eq (natDigits i) (natDigits N) b
    (natDigits_digits i) (natDigits_digits N) heq3.symm
  exact hne (natDigits_inj hd)

/-- The character list of the `${uuid}` placeholder. -/
theorem phUuid_chars : phUuid = Char.ofNat 36 :: Char.ofNat 123 :: Char.ofNat 117 ::
    Char.ofNat 117 :: Char.ofNat 105 :: Char.ofNat 100 :: [Char.ofNat 125] := by
  decide

/-- `${uuid}` does not occur inside `${N}`. -/
theorem not_occurs_phUuid_phNum (N : Nat) : ¬ Occurs phUuid (phNum N) := by
  rintro ⟨a, b, heq⟩
  rw [phUuid_chars] at heq
  simp only [phNum] at heq
  have ha : a = [] := dollar_at_zero (natDigits N) (natDigits_digits N) a _ b heq
  subst ha
  simp only [List.nil_append, List.cons_append] at heq
  obtain ⟨-, heq2⟩ := List.cons.inj heq
  obtain ⟨-, heq3⟩ := List.cons.inj heq2
  cases hd : natDigits N with
  | nil => rw [hd] at heq3; simp at heq3
  | cons c ds =>
    rw [hd] at heq3
    simp only [List.cons_append] at heq3
    have hc := (List.cons.inj heq3).1
    have := natDigits_digits N c (by rw [hd]; exact List.mem_cons_self c ds)
    rw [hc] at this
    have h117 : (Char.ofNat 117).toNat = 117 := by decide
    omega

/-- Folding capture replacements whose placeholders never occur leaves
the text unchanged. -/
theorem foldl_phNum_skip (caps : List (Option Str)) :
    ∀ (l : List Nat) (t : Str), (∀ i ∈ l, ¬ Occurs (phNum i) t) →
      l.foldl (fun acc i => replaceAll acc (phNum i)
        (expandRepl (phNum i) [] ((caps.getD i none).getD []))) t = t := by
  intro l
  induction l with
  | nil => intro t _; rfl
  | cons i l ih =>
    intro t hno
    simp only [List.foldl_cons]
    rw [replaceAll_eq_self t _ _ (hno i (List.mem_cons_self i l))]
    exact ih t (fun j hj => hno j (List.mem_cons_of_mem i hj))

end PikeSRE

namespace PikeSRE

/-- The captures pass leaves an out-of-bounds placeholder `${N}`
untouched: the loop only ever replaces `${i}` for `i <` the capture
count. -/
theorem capturesPass_out_of_bounds (caps : List (Option Str)) (N : Nat)
    (hlen : caps.length ≤ N) : capturesPass caps (phNum N) = phNum N := by
  apply foldl_phNum_skip
  intro i hi
  have : i < caps.length := List.mem_range.mp hi
  exact not_occurs_phNum_phNum (by omega)

/-- The captures pass on a pure `${N}` template with `N` in bounds
replaces it by the `N`-th capture, provided that capture is dollar-free
(so no later loop iteration nor dollar-escape rewrites it). -/
theorem capturesPass_in_bounds (caps : List (Option Str)) (N : Nat) (v : Str)
    (hv : caps.getD N none = some v) (hnd : ∀ c ∈ v, c ≠ Char.ofNat 36)
    (hN : N < caps.length) : capturesPass caps (phNum N) = v := by
  have hsplit : caps.length = N + 1 + (caps.length - N - 1) := by omega
  rw [capturesPass, hsplit, List.range_add, List.foldl_append, List.range_succ,
    List.foldl_append]
  have h1 : (List.range N).foldl (fun acc i => replaceAll acc (phNum i)
      (expandRepl (phNum i) [] ((caps.getD i none).getD []))) (phNum N) = phNum N := by
    apply foldl_phNum_skip
    intro i hi
    have : i < N := List.mem_range.mp hi
    exact not_occurs_phNum_phNum (by omega)
  rw [h1]
  have h2 : [N].foldl (fun acc i => replaceAll acc (phNum i)
      (expandRepl (phNum i) [] ((caps.getD i none).getD []))) (phNum N) = v := by
    simp only [List.foldl_cons, List.foldl_nil, hv, Option.getD_some]
    rw [expandRepl_noDollar _ v hnd, replaceAll_self]
    simp [phNum]
  rw [h2]
  apply foldl_phNum_skip
  intro i hi
  simp only [List.mem_map] at hi
  obtain ⟨j, -, rfl⟩ := hi
  exact not_occurs_of_noDollar rfl hnd

/-- Claim C9, counterexample: with two captures, the out-of-bounds
placeholder `${5}` is left verbatim in the output — the claim's "expands
to the empty string" fails (the capture loop only covers indices below
the capture count, and `${5}` matches no other pass's placeholder
shape). -/
theorem C9_out_of_bounds_left_verbatim :
    substituteString "$\x7b5\x7d".data
        { captures := some [some "a".data, some "b".data], path := none, data := none,
          input := none } (fun _ => []) 0 = ("$\x7b5\x7d".data, 1) ∧
    "$\x7b5\x7d".data ≠ ([] : Str) := by
  exact ⟨by decide, by decide⟩

/-- Claim C9, amended: on a `${N}` template with a captures-only context,
a `${N}` whose index is within bounds expands to the `N`-th capture
(stated for dollar-free capture values — the later passes rescan
substituted text, see C10, and the host interprets dollar escapes in
replacement strings); a `${N}` whose index is out of bounds is left as
the literal text `${N}`, not replaced by the empty string. -/
theorem C9_capture_bounds (caps : List (Option Str)) (N : Nat) (gen : Nat → Str)
    (k : Nat) :
    (∀ v : Str, caps.getD N none = some v → (∀ c ∈ v, c ≠ Char.ofNat 36) →
      N < caps.length →
      substituteString (phNum N)
        { captures := some caps, path := none, data := none, input := none } gen k =
        (v, k + 1)) ∧
    (caps.length ≤ N →
      substituteString (phNum N)
        { captures := some caps, path := none, data := none, input := none } gen k =
        (phNum N, k + 1)) := by
  constructor
  · intro v hv hnd hN
    simp only [substituteString]
    rw [capturesPass_in_bounds caps N v hv hnd hN]
    rw [replaceAll_eq_self _ _ _ (not_occurs_of_noDollar (by rw [phUuid_chars]; rfl) hnd)]
  · intro hlen
    simp only [substituteString]
    rw [capturesPass_out_of_bounds caps N hlen]
    rw [replaceAll_eq_self _ _ _ (not_occurs_phUuid_phNum N)]

/-- Claim C9, witness: captures `[a, b]` — `${1}` expands to `"b"` and
`${5}` stays `"${5}"`. -/
theorem C9_capture_bounds_witness :
    substituteString (phNum 1)
        { captures := some [some "a".data, some "b".data], path := none, data := none,
          input := none } (fun _ => []) 0 = ("b".data, 1) ∧
    substituteString (phNum 5)
        { captures := some [some "a".data, some "b".data], path := none, data := none,
          input := none } (fun _ => []) 0 = (phNum 5, 1) :=
  ⟨(C9_capture_bounds [some "a".data, some "b".data] 1 (fun _ => []) 0).1 "b".data
      (by decide) (by decide) (by decide),
   (C9_capture_bounds [some "a".data, some "b".data] 5 (fun _ => []) 0).2 (by decide)⟩

end PikeSRE

namespace PikeSRE

/-- A duplicate-free list contained in another list is no longer than
it. -/
theorem nodup_subset_length {α : Type} [DecidableEq α] {l S : List α}
    (h : l.Nodup) (hs : l ⊆ S) : l.length ≤ S.length :=
  calc l.length = l.toFinset.card := (List.toFinset_card_of_nodup h).symm
    _ ≤ S.toFinset.card := Finset.card_le_card (by
        intro x hx
        simp only [List.mem_toFinset] at hx ⊢
        exact hs hx)
    _ ≤ S.length := S.toFinset_card_le

/-- The rule loop only appends to the queue and the reaction list, leaves
the visited set alone, and what it appends depends only on the current
document and the incoming identifier counter. -/
theorem processRules_spec (allRules : List CRule) (gen : Nat → Str) (cur : Scroll) :
    ∀ (rules : List CRule) (q : List Scroll) (vis : List Str) (rx : List Scroll) (k : Nat),
      processRules rules allRules gen cur ⟨q, vis, rx, k⟩ =
        ⟨q ++ (processRules rules allRules gen cur ⟨[], [], [], k⟩).queue,
         vis,
         rx ++ (processRules rules allRules gen cur ⟨[], [], [], k⟩).reactions,
         (processRules rules allRules gen cur ⟨[], [], [], k⟩).k⟩ := by
  intro rules
  induction rules with
  | nil => intro q vis rx k; simp [processRules]
  | cons r rest ih =>
    intro q vis rx k
    simp only [processRules]
    cases h : (applyPatternM r cur gen k).1 with
    | none =>
      rw [ih, ih]
    | some reaction =>
      dsimp only [List.nil_append]
      rw [ih]
      conv_rhs => rw [ih]
      simp [List.append_assoc]

/-- The documents a processed document enqueues for cascading, as a
function of the rule set, the document and the identifier counter. -/
def cascadesOf (rules : List CRule) (gen : Nat → Str) (cur : Scroll) (k : Nat) :
    List Scroll :=
  (processRules rules rules gen cur ⟨[], [], [], k⟩).queue

/-- Each rule enqueues at most one cascade document. -/
theorem processRules_queue_len (allRules : List CRule) (gen : Nat → Str) (cur : Scroll) :
    ∀ (rules : List CRule) (st : EngState),
    (processRules rules allRules gen cur st).queue.length ≤
      st.queue.length + rules.length := by
  intro rules
  induction rules with
  | nil => intro st; simp [processRules]
  | cons r rest ih =>
    intro st
    simp only [processRules]
    cases h : (applyPatternM r cur gen st.k).1 with
    | none =>
      have := ih { st with k := (applyPatternM r cur gen st.k).2 }
      simp only [List.length_cons] at this ⊢
      omega
    | some reaction =>
      have hthis := ih
        { st with
            reactions := st.reactions ++ [reaction],
            queue := st.queue ++
              (if (match r.thenName with
                   | some nm => (findRule allRules nm).isSome
                   | none => false) then [reaction] else []),
            k := (applyPatternM r cur gen st.k).2 }
      have henq : (if (match r.thenName with
          | some nm => (findRule allRules nm).isSome
          | none => false) then ([reaction] : List Scroll) else []).length ≤ 1 := by
        split <;> simp
      simp only [List.length_append, List.length_cons] at hthis ⊢
      omega

/-- The cascade list of one document has at most one entry per rule. -/
theorem cascadesOf_length (rules : List CRule) (gen : Nat → Str) (cur : Scroll)
    (k : Nat) : (cascadesOf rules gen cur k).length ≤ rules.length := by
  have := processRules_queue_len rules gen cur rules ⟨[], [], [], k⟩
  simpa [cascadesOf] using this

end PikeSRE

namespace PikeSRE

/-- Splitting a slash-free string on `/` yields the single field. -/
theorem splitOnChar_no_sep (sep : Char) : ∀ w : Str, (∀ c ∈ w, c ≠ sep) →
    splitOnChar sep w = [w] := by
  intro w
  induction w with
  | nil => intro _; rfl
  | cons c rest ih =>
    intro h
    rw [splitOnChar]
    rw [if_neg (h c (List.mem_cons_self c rest))]
    rw [ih (fun x hx => h x (List.mem_cons_of_mem c hx))]

/-- A key `/w` with a slash-free non-empty `w` parses to the single
segment `w`. -/
theorem parsePath_slash (w : Str) (hw : ∀ c ∈ w, c ≠ Char.ofNat 47) (hne : w ≠ []) :
    parsePath (Char.ofNat 47 :: w) = [w] := by
  rw [parsePath, splitOnChar]
  rw [if_pos rfl, splitOnChar_no_sep _ w hw]
  simp only [List.filter_cons, List.filter_nil]
  simp [hne]

/-- The watch glob `**` matches every path. -/
theorem matchSeg_double_any (ps : List Str) : matchSeg [GlobSeg.double] ps = true := by
  rw [matchSeg]
  rw [List.any_eq_true]
  refine ⟨[], ?_, rfl⟩
  rw [List.mem_tails]
  exact List.nil_suffix

/-- The character list of the `${data.` prefix. -/
theorem dataPrefix_chars : dataPrefix = Char.ofNat 36 :: Char.ofNat 123 ::
    Char.ofNat 100 :: Char.ofNat 97 :: Char.ofNat 116 :: Char.ofNat 97 ::
    [Char.ofNat 46] := by
  decide

/-- The `${data.*}` pass leaves a dollar-free string unchanged. -/
theorem dataPassAux_noDollar (d : JValue) : ∀ fuel (t : Str),
    (∀ c ∈ t, c ≠ Char.ofNat 36) → dataPassAux d fuel t = t := by
  intro fuel
  induction fuel with
  | zero => intro t _; rfl
  | succ fuel ih =>
    intro t ht
    cases t with
    | nil => rfl
    | cons c rest =>
      rw [dataPassAux]
      have hpre : dataPrefix.isPrefixOf (c :: rest) = false := by
        rw [dataPrefix_chars]
        simp only [List.isPrefixOf]
        rw [beq_eq_false_iff_ne.mpr (Ne.symm (ht c (List.mem_cons_self c rest)))]
        rfl
      rw [hpre]
      simp only [Bool.false_eq_true, if_false]
      rw [ih rest (fun x hx => ht x (List.mem_cons_of_mem c hx))]

/-- The `${data.*}` pass on a dollar-free string. -/
theorem dataPass_noDollar (d : JValue) (t : Str) (ht : ∀ c ∈ t, c ≠ Char.ofNat 36) :
    dataPass d t = t :=
  dataPassAux_noDollar d t.length t ht

end PikeSRE

namespace PikeSRE

/-- The self-cascading rule of the C3 counterexample: watch everything,
no guards, emit type `T`, output path `/a${path.0}` (one character longer
than the input key every time), empty string payload, cascade to
itself. -/
def ruleA : CRule :=
  { name := "A".data, watch := [GlobSeg.double], x := none, g := none, v := none,
    emit := "T".data, emit_path := "/a$\x7bpath.0\x7d".data,
    template := JValue.str [], thenName := some "A".data }

/-- Path substitution of the counterexample's output template: on the
single-segment path `[w]` (dollar-free `w`), `/a${path.0}` becomes
`/a` followed by `w`. -/
theorem substA (w : Str) (hw : ∀ c ∈ w, c ≠ Char.ofNat 36) (gen : Nat → Str) (k : Nat) :
    substituteString "/a$\x7bpath.0\x7d".data
      { captures := some [], path := some [w], data := some (JValue.obj []),
        input := some [] } gen k =
      (Char.ofNat 47 :: Char.ofNat 97 :: w, k + 1) := by
  have hfull : ∀ c ∈ Char.ofNat 47 :: Char.ofNat 97 :: w, c ≠ Char.ofNat 36 := by
    intro c hc
    rcases List.mem_cons.mp hc with h | hc'
    · subst h; decide
    · rcases List.mem_cons.mp hc' with h | hw'
      · subst h; decide
      · exact hw c hw'
  have h2 : pathPass [w] "/a$\x7bpath.0\x7d".data =
      Char.ofNat 47 :: Char.ofNat 97 :: (expandRepl (phPathNum 0) [] w ++ []) := rfl
  show (dataPass (JValue.obj [])
      (replaceAll
        (replaceAll (pathPass [w] (capturesPass [] "/a$\x7bpath.0\x7d".data)) phUuid
          (expandRepl phUuid [] (gen k)))
        phInput (expandRepl phInput [] [])), k + 1) =
    (Char.ofNat 47 :: Char.ofNat 97 :: w, k + 1)
  rw [show capturesPass [] "/a$\x7bpath.0\x7d".data = "/a$\x7bpath.0\x7d".data from rfl]
  rw [h2, expandRepl_noDollar _ w hw, List.append_nil]
  rw [replaceAll_eq_self _ _ _
    (not_occurs_of_noDollar (by rw [phUuid_chars]; rfl) hfull)]
  rw [replaceAll_eq_self _ _ _
    (not_occurs_of_noDollar (by decide) hfull)]
  rw [dataPass_noDollar _ _ hfull]

/-- Payload substitution of the counterexample: the empty-string template
stays empty and consumes one identifier tick. -/
theorem substVA (w : Str) (gen : Nat → Str) (k : Nat) :
    substituteValue (JValue.str [])
      { captures := some [], path := some [w], data := some (JValue.obj []),
        input := some [] } gen k = (JValue.str [], k + 1) := rfl

end PikeSRE

namespace PikeSRE

/-- A document of the counterexample family: key `/w`, type `T`,
empty-string payload. -/
def docW (w : Str) (mt : Option ScrollMeta) : Scroll :=
  { key := Char.ofNat 47 :: w, type := "T".data, meta := mt, data := JValue.str [] }

/-- The template context `applyPattern` builds for such a document. -/
def ctxW (w : Str) : TemplateCtx :=
  { captures := some [], path := some [w], data := some (JValue.obj []),
    input := some [] }

/-- One application of the counterexample rule: on a document with key
`/w` (slash-free, dollar-free, non-empty `w`), type `T` and empty-string
payload, the rule fires and emits the document with key `/aw`, type `T`
and empty-string payload, consuming two identifier ticks. -/
theorem applyA (w : Str) (hw36 : ∀ c ∈ w, c ≠ Char.ofNat 36)
    (hw47 : ∀ c ∈ w, c ≠ Char.ofNat 47) (hne : w ≠ []) (mt : Option ScrollMeta)
    (gen : Nat → Str) (k : Nat) :
    applyPatternM ruleA (docW w mt) gen k =
      (some (docW (Char.ofNat 97 :: w) (some { version := 1, producedBy := "A".data })),
        k + 2) := by
  rw [applyPatternM]
  have hkey : (docW w mt).key = Char.ofNat 47 :: w := rfl
  have hwatch : ruleA.watch = [GlobSeg.double] := rfl
  rw [hkey, hwatch, parsePath_slash w hw47 hne, matchSeg_double_any]
  rw [if_neg (by decide)]
  show (some (Scroll.mk (substituteString ruleA.emit_path (ctxW w) gen k).1
      ruleA.emit (some (ScrollMeta.mk 1 ruleA.name))
      (substituteValue ruleA.template (ctxW w) gen
        (substituteString ruleA.emit_path (ctxW w) gen k).2).1),
    (substituteValue ruleA.template (ctxW w) gen
      (substituteString ruleA.emit_path (ctxW w) gen k).2).2) = _
  have hep : ruleA.emit_path = "/a$\x7bpath.0\x7d".data := rfl
  have htm : ruleA.template = JValue.str [] := rfl
  have hsub : substituteString ruleA.emit_path (ctxW w) gen k =
      (Char.ofNat 47 :: Char.ofNat 97 :: w, k + 1) := by
    rw [hep]
    exact substA w hw36 gen k
  have hsv : substituteValue ruleA.template (ctxW w) gen (k + 1) =
      (JValue.str [], k + 2) := by
    rw [htm]
    exact substVA w gen (k + 1)
  rw [hsub, hsv]
  rfl

end PikeSRE

namespace PikeSRE

/-- The key bodies of the diverging cascade: `a`, `aa`, `aaa`, ... -/
def wA (m : Nat) : Str := List.replicate (m + 1) (Char.ofNat 97)

/-- The visited-set tag of the `m`-th document of the cascade. -/
def tagA (m : Nat) : Str := tagOf (docW (wA m) none)

/-- Every character of a cascade key body is the letter `a`. -/
theorem wA_mem (m : Nat) : ∀ c ∈ wA m, c = Char.ofNat 97 := by
  intro c hc
  rw [wA, List.mem_replicate] at hc
  exact hc.2

/-- Cascade key bodies are dollar-free. -/
theorem wA_no36 (m : Nat) : ∀ c ∈ wA m, c ≠ Char.ofNat 36 := by
  intro c hc
  rw [wA_mem m c hc]
  decide

/-- Cascade key bodies are slash-free. -/
theorem wA_no47 (m : Nat) : ∀ c ∈ wA m, c ≠ Char.ofNat 47 := by
  intro c hc
  rw [wA_mem m c hc]
  decide

/-- Cascade key bodies are non-empty. -/
theorem wA_ne_nil (m : Nat) : wA m ≠ [] := by
  simp [wA]

/-- The tag of the `m`-th cascade document has length `m + 4`. -/
theorem tagA_length (m : Nat) : (tagA m).length = m + 4 := by
  have h : tagA m = (Char.ofNat 47 :: wA m) ++ Char.ofNat 58 :: "T".data := rfl
  rw [h, List.length_append]
  rw [show ("T".data : Str) = [Char.ofNat 84] from rfl]
  simp [wA]

/-- Distinct cascade documents carry distinct tags. -/
theorem tagA_inj {j m : Nat} (h : j ≠ m) : tagA j ≠ tagA m := by
  intro heq
  apply h
  have := congrArg List.length heq
  rw [tagA_length, tagA_length] at this
  omega

/-- Processing the `m`-th cascade document against the counterexample
rule enqueues and records the `m+1`-st cascade document. -/
theorem processDocA (gen : Nat → Str) (m : Nat) (mt : Option ScrollMeta)
    (vis : List Str) (rx : List Scroll) (k : Nat) :
    processDoc [ruleA] gen (docW (wA m) mt) ⟨[], vis, rx, k⟩ =
      ⟨[docW (wA (m + 1)) (some ⟨1, "A".data⟩)], vis,
        rx ++ [docW (wA (m + 1)) (some ⟨1, "A".data⟩)], k + 2⟩ := by
  have har := applyA (wA m) (wA_no36 m) (wA_no47 m) (wA_ne_nil m) mt gen k
  show processRules [ruleA] [ruleA] gen (docW (wA m) mt) ⟨[], vis, rx, k⟩ = _
  rw [processRules]
  rw [show (⟨[], vis, rx, k⟩ : EngState).k = k from rfl]
  rw [har]
  rfl

/-- With all tags from the `m`-th one on unvisited, the engine loop on
the `m`-th cascade document exhausts any amount of fuel. -/
theorem runApplyA_none (gen : Nat → Str) : ∀ (fuel m : Nat) (mt : Option ScrollMeta)
    (vis : List Str) (rx : List Scroll) (k : Nat),
    (∀ j, m ≤ j → tagA j ∉ vis) →
    runApply [ruleA] gen fuel ⟨[docW (wA m) mt], vis, rx, k⟩ = none := by
  intro fuel
  induction fuel with
  | zero => intro m mt vis rx k _; rfl
  | succ fuel ih =>
    intro m mt vis rx k hvis
    show (if tagA m ∈ vis then
        runApply [ruleA] gen fuel ⟨[], vis, rx, k⟩
      else
        runApply [ruleA] gen fuel
          (processDoc [ruleA] gen (docW (wA m) mt) ⟨[], tagA m :: vis, rx, k⟩)) = none
    rw [if_neg (hvis m (Nat.le_refl m))]
    rw [processDocA gen m mt (tagA m :: vis) rx k]
    refine ih (m + 1) (some ⟨1, "A".data⟩) (tagA m :: vis)
      (rx ++ [docW (wA (m + 1)) (some ⟨1, "A".data⟩)]) (k + 2) ?_
    intro j hj
    rw [List.mem_cons]
    push_neg
    refine ⟨tagA_inj (by omega), hvis j (by omega)⟩

end PikeSRE

namespace PikeSRE

/-- Claim C3, counterexample: a single self-cascading rule whose output
path `/a$\x7bpath.0\x7d` mints a fresh key on every round makes
`PatternEngine.apply` loop forever on the document with key `/a` — every
cascaded document carries a tag never seen before, so the visited set
never prunes, and no amount of fuel makes the `while` loop of `apply`
return. -/
theorem C3_fresh_key_cascade_diverges :
    ¬ ∃ (fuel : Nat) (reactions : List Scroll),
      engineApply [ruleA] (fun _ => []) fuel (docW (wA 0) none) = some reactions := by
  rintro ⟨fuel, reactions, h⟩
  rw [engineApply] at h
  rw [runApplyA_none (fun _ => []) fuel 0 none [] [] 0 (by intro j _ hj; simp at hj)] at h
  exact Option.noConfusion h

/-- The engine loop returns within fuel `n` whenever the measure
`queue length + (unvisited tags of S) * (rules + 1)` is below `n`, for
any tag set `S` that contains every queued tag and is closed under
cascading. -/
theorem runApply_isSome (rules : List CRule) (gen : Nat → Str) (S : List Str)
    (hclosed : ∀ (cur : Scroll) (k : Nat), tagOf cur ∈ S →
      ∀ d ∈ cascadesOf rules gen cur k, tagOf d ∈ S) :
    ∀ (n : Nat) (st : EngState),
    (∀ d ∈ st.queue, tagOf d ∈ S) → st.visited ⊆ S → st.visited.Nodup →
    st.queue.length + (S.length - st.visited.length) * (rules.length + 1) < n →
    (runApply rules gen n st).isSome = true := by
  intro n
  induction n with
  | zero => intro st _ _ _ hm; omega
  | succ n ih =>
    intro st hq hsub hnd hm
    rw [runApply]
    cases hqe : st.queue with
    | nil => rfl
    | cons cur rest =>
      rw [hqe] at hq hm
      dsimp only
      by_cases hv : tagOf cur ∈ st.visited
      · rw [if_pos hv]
        refine ih { st with queue := rest } ?_ hsub hnd ?_
        · intro d hd; exact hq d (List.mem_cons_of_mem cur hd)
        · show rest.length + (S.length - st.visited.length) * (rules.length + 1) < n
          simp only [List.length_cons] at hm
          generalize (S.length - st.visited.length) * (rules.length + 1) = P at hm ⊢
          omega
      · rw [if_neg hv]
        have hcs := processRules_spec rules gen cur rules rest (tagOf cur :: st.visited)
          st.reactions st.k
        rw [show processDoc rules gen cur
            { st with queue := rest, visited := tagOf cur :: st.visited } =
            processRules rules rules gen cur
              ⟨rest, tagOf cur :: st.visited, st.reactions, st.k⟩ from rfl]
        rw [hcs]
        rw [show (processRules rules rules gen cur ⟨[], [], [], st.k⟩).queue =
            cascadesOf rules gen cur st.k from rfl]
        have hcur : tagOf cur ∈ S := hq cur (List.mem_cons_self cur rest)
        have hvl : st.visited.length + 1 ≤ S.length := by
          have : (tagOf cur :: st.visited).Nodup := by
            rw [List.nodup_cons]; exact ⟨hv, hnd⟩
          have hss : (tagOf cur :: st.visited) ⊆ S := by
            intro x hx
            rcases List.mem_cons.mp hx with h | h
            · rw [h]; exact hcur
            · exact hsub h
          have := nodup_subset_length this hss
          simpa using this
        refine ih _ ?_ ?_ ?_ ?_
        · intro d hd
          rcases List.mem_append.mp hd with h | h
          · exact hq d (List.mem_cons_of_mem cur h)
          · exact hclosed cur st.k hcur d h
        · intro x hx
          rcases List.mem_cons.mp hx with h | h
          · rw [h]; exact hcur
          · exact hsub h
        · rw [List.nodup_cons]; exact ⟨hv, hnd⟩
        · have hcl := cascadesOf_length rules gen cur st.k
          simp only [List.length_append, List.length_cons] at hm ⊢
          have hsplit : S.length - st.visited.length =
              (S.length - (st.visited.length + 1)) + 1 := by omega
          rw [hsplit] at hm
          generalize hP : (S.length - (st.visited.length + 1)) = P at hm ⊢
          have hexp : (P + 1) * (rules.length + 1) =
              P * (rules.length + 1) + (rules.length + 1) := by ring
          rw [hexp] at hm
          generalize (cascadesOf rules gen cur st.k).length = C at hcl ⊢
          generalize P * (rules.length + 1) = Q at hm ⊢
          omega

/-- Claim C3 (amended): `PatternEngine.apply` terminates whenever the
reachable `(key, type)` tags stay inside a finite set closed under the
rules' cascading — in particular for any rule graph whose output paths
do not mint fresh keys forever.  Some fuel suffices and a finite
reaction list is returned. -/
theorem C3_visited_set_termination (rules : List CRule) (gen : Nat → Str) (S : List Str)
    (sc : Scroll)
    (hclosed : ∀ (cur : Scroll) (k : Nat), tagOf cur ∈ S →
      ∀ d ∈ cascadesOf rules gen cur k, tagOf d ∈ S)
    (hsc : tagOf sc ∈ S) :
    ∃ (fuel : Nat) (reactions : List Scroll),
      engineApply rules gen fuel sc = some reactions := by
  have h := runApply_isSome rules gen S hclosed
    (1 + S.length * (rules.length + 1) + 1) ⟨[sc], [], [], 0⟩
    (by intro d hd; rw [List.mem_singleton] at hd; rw [hd]; exact hsc)
    (by intro x hx; exact absurd hx (List.not_mem_nil x))
    List.nodup_nil
    (by simp)
  cases hr : runApply rules gen (1 + S.length * (rules.length + 1) + 1)
      ⟨[sc], [], [], 0⟩ with
  | none => rw [hr] at h; exact absurd h (by decide)
  | some reactions =>
    exact ⟨1 + S.length * (rules.length + 1) + 1, reactions, hr⟩

/-- Witness for C3: with no rules registered, the application to the
seed document terminates — the closure and membership hypotheses hold
for the singleton tag set. -/
theorem C3_visited_set_termination_witness :
    ∃ (fuel : Nat) (reactions : List Scroll),
      engineApply [] (fun _ => []) fuel (docW (wA 0) none) = some reactions :=
  C3_visited_set_termination [] (fun _ => []) [tagOf (docW (wA 0) none)]
    (docW (wA 0) none)
    (by intro cur k hcur d hd; simp [cascadesOf, processRules] at hd)
    (by simp)

end PikeSRE
